import Mathlib

/-!
Verification of the Dijkstra shortest-path engine in `src/lib.rs`.

The Rust code is shallowly embedded: `HashMap<String, _>` becomes an
association list with in-place replacing insert, `HashSet<Vertex>` becomes a
duplicate-free list whose iteration order is insertion order (the hash-seeded
scan order of `get_minimum`, the one place the set's arbitrary iteration order
matters, is additionally exposed as an explicit parameter by `runOrd`), and
`i32` weights and distances become `Int`, with `i32::MAX` kept as the literal
sentinel `2147483647` and the one `i32` addition the algorithm performs — the
relaxation candidate `get_shortest_distance(node) + get_distance(node, target)`
— wrapped into the `i32` range by `wrap32`, the two's-complement semantics of
a release build (a debug build aborts on overflow instead).  The two `while`
loops become fuel-indexed recursions whose fuel is proven sufficient.
-/

/-- Vertex of the graph, mirroring `struct Vertex`: an identity string and a
display name.  The derived Rust `PartialEq`/`Eq`/`Hash` compare both fields;
structural equality of this structure models exactly that. -/
structure Vertex where
  id : String
  name : String
deriving DecidableEq, Repr

/-- Directed weighted edge, mirroring `struct Edge` (`weight: i32` as `Int`). -/
structure Edge where
  id : String
  source : Vertex
  destination : Vertex
  weight : Int
deriving DecidableEq, Repr

/-- Graph: ordered vertex and edge sequences, mirroring `struct Graph`. -/
structure Graph where
  vertices : List Vertex
  edges : List Edge
deriving Repr

/-- Association-list model of `HashMap<String, α>` lookup (`HashMap::get`):
keys are unique, the first binding wins. -/
def mapFind (k : String) : List (String × α) → Option α
  | [] => none
  | (k', v) :: m => if k' = k then some v else mapFind k m

/-- Association-list model of `HashMap::insert`: replaces the binding in place
when the key is present, appends it otherwise, keeping keys unique. -/
def mapInsert (k : String) (v : α) : List (String × α) → List (String × α)
  | [] => [(k, v)]
  | (k', v') :: m => if k' = k then (k, v) :: m else (k', v') :: mapInsert k v m

/-- List model of `HashSet<Vertex>` insertion: a membership-tested append, so
the list stays duplicate-free and iterates in insertion order.  The source's
`HashSet` iterates in a per-instance random order instead (`RandomState`
hashing); where that order is observable — the scan of `get_minimum` — the
defs `runStepOrd`/`runLoopOrd`/`runOrd` expose it as an explicit parameter,
`run` being its fixed insertion-order instance. -/
def listInsert (v : Vertex) (s : List Vertex) : List Vertex :=
  if v ∈ s then s else s ++ [v]

/-- List model of `HashSet::remove`. -/
def listRemove (v : Vertex) (s : List Vertex) : List Vertex :=
  s.filter (fun w => decide (w ≠ v))

/-- State of the engine, mirroring `struct Djikstra` field by field. -/
structure Djikstra where
  nodes : List Vertex
  edges : List Edge
  settled_nodes : List Vertex
  unsettled_nodes : List Vertex
  predecessors : List (String × Vertex)
  distance : List (String × Int)
deriving Repr

/-- Mirrors `Djikstra::new`. -/
def Djikstra.new (graph : Graph) : Djikstra :=
  { nodes := graph.vertices
    edges := graph.edges
    settled_nodes := []
    unsettled_nodes := []
    predecessors := []
    distance := [] }

/-- The `std::i32::MAX` sentinel that `get_shortest_distance` uses as infinity. -/
def i32MAX : Int := 2147483647

/-- Two's-complement wrapping of an unbounded integer into the `i32` range
`[-2147483648, 2147483647]`: the release-build semantics of the `i32`
addition in `find_minimal_distance` (a debug build aborts on overflow
instead of wrapping). -/
def wrap32 (n : Int) : Int := (n + 2147483648) % 4294967296 - 2147483648

/-- Mirrors `Djikstra::get_shortest_distance`. -/
def Djikstra.get_shortest_distance (s : Djikstra) (destination : Vertex) : Int :=
  match mapFind destination.id s.distance with
  | some d => d
  | none => i32MAX

/-- Body of the `for edge in &self.edges` loop of `Djikstra::get_distance`:
overwrite the accumulated weight whenever the edge matches the pair. -/
def Djikstra.weightStep (node target : Vertex) (weight : Int) (edge : Edge) : Int :=
  if edge.source.id = node.id ∧ edge.destination.id = target.id then edge.weight
  else weight

/-- Mirrors `Djikstra::get_distance`: one pass over the edge list overwriting
`weight` at every match, so the weight of the last matching edge wins and the
initial `0` survives when no edge matches. -/
def Djikstra.get_distance (s : Djikstra) (node target : Vertex) : Int :=
  s.edges.foldl (Djikstra.weightStep node target) 0

/-- Mirrors `Djikstra::is_settled` (`HashSet::contains`, full structural
equality of `Vertex`). -/
def Djikstra.is_settled (s : Djikstra) (vertex : Vertex) : Bool :=
  decide (vertex ∈ s.settled_nodes)

/-- Mirrors `Djikstra::get_neighbors`: destinations of outgoing edges whose
destination is not settled, in edge-list order, one entry per matching edge. -/
def Djikstra.get_neighbors (s : Djikstra) (node : Vertex) : List Vertex :=
  (s.edges.filter
    (fun e => decide (e.source.id = node.id) && ! s.is_settled e.destination)).map
    (fun e => e.destination)

/-- Body of the `for vertex in vertices` loop of `Djikstra::get_minimum`. -/
def Djikstra.minStep (s : Djikstra) : Option Vertex → Vertex → Option Vertex
  | none, vertex => some vertex
  | some m, vertex =>
    if s.get_shortest_distance vertex < s.get_shortest_distance m then some vertex
    else some m

/-- Mirrors `Djikstra::get_minimum`: linear scan of the unsettled collection,
the first element with a strictly smaller tentative distance replacing the
current minimum. -/
def Djikstra.get_minimum (s : Djikstra) (vertices : List Vertex) : Option Vertex :=
  vertices.foldl s.minStep none

/-- Body of the `for target in &adjacent_nodes` loop of
`Djikstra::find_minimal_distance`: one relaxation of `target` from `node`.
The candidate `get_shortest_distance(node) + get_distance(node, target)` is
an `i32` addition in the source, so it goes through `wrap32`: a release build
wraps it into the `i32` range on overflow (a debug build aborts). -/
def Djikstra.relaxOne (node : Vertex) (s : Djikstra) (target : Vertex) : Djikstra :=
  if s.get_shortest_distance target >
      wrap32 (s.get_shortest_distance node + s.get_distance node target) then
    { s with
      distance :=
        mapInsert target.id
          (wrap32 (s.get_shortest_distance node + s.get_distance node target))
          s.distance
      predecessors := mapInsert target.id node s.predecessors
      unsettled_nodes := listInsert target s.unsettled_nodes }
  else s

/-- Mirrors `Djikstra::find_minimal_distance`: the adjacent list is computed
once up front, then each neighbour is relaxed in order. -/
def Djikstra.find_minimal_distance (s : Djikstra) (node : Vertex) : Djikstra :=
  (s.get_neighbors node).foldl (Djikstra.relaxOne node) s

/-- One iteration of the `while self.unsettled_nodes.len() > 0` loop of
`Djikstra::run`: select the minimum unsettled vertex, settle it, relax its
neighbours.  The `none` branch is the `panic!("Error")` arm, unreachable while
the unsettled set is non-empty (`Djikstra.get_minimum_isSome`). -/
def Djikstra.runStep (s : Djikstra) : Djikstra :=
  match s.get_minimum s.unsettled_nodes with
  | some node =>
    Djikstra.find_minimal_distance
      { s with
        settled_nodes := listInsert node s.settled_nodes
        unsettled_nodes := listRemove node s.unsettled_nodes }
      node
  | none => s

/-- Fuel-indexed unfolding of the `while` loop of `Djikstra::run`. -/
def Djikstra.runLoop : Nat → Djikstra → Djikstra
  | 0, s => s
  | n + 1, s => if s.unsettled_nodes.isEmpty then s else Djikstra.runLoop n s.runStep

/-- The state reset performed at the top of `Djikstra::run`: fresh settled,
unsettled, distance and predecessor state, seeded with the source. -/
def Djikstra.runInit (s : Djikstra) (source : Vertex) : Djikstra :=
  { s with
    settled_nodes := []
    unsettled_nodes := listInsert source []
    predecessors := []
    distance := mapInsert source.id 0 [] }

/-- Mirrors `Djikstra::run`.  Each loop iteration settles one vertex that was
never settled before, and every vertex that ever enters the unsettled set is
the source or the destination of some edge, so `edges.length + 1` iterations
always reach the loop's exit condition (proved in `Djikstra.run_unsettled_nil`);
on that fuel this function equals the source's unbounded `while` loop. -/
def Djikstra.run (s : Djikstra) (source : Vertex) : Djikstra :=
  Djikstra.runLoop (s.edges.length + 1) (s.runInit source)

/-- `runStep` with the iteration order of the unsettled `HashSet` made
explicit: the source's `get_minimum(&self.unsettled_nodes)` scans the set in
the per-instance random order of its `RandomState` hasher; `scan` is the
order that scan visits. -/
def Djikstra.runStepOrd (s : Djikstra) (scan : List Vertex) : Djikstra :=
  match s.get_minimum scan with
  | some node =>
    Djikstra.find_minimal_distance
      { s with
        settled_nodes := listInsert node s.settled_nodes
        unsettled_nodes := listRemove node s.unsettled_nodes }
      node
  | none => s

/-- The main loop of `run` with an explicit family of scan orders: at its
`k`-th iteration the unsettled set is scanned in the order
`ord k s.unsettled_nodes`.  The hash-seeded executions of the source are the
instances whose `ord k q` is a permutation of `q`. -/
def Djikstra.runLoopOrd (ord : Nat → List Vertex → List Vertex) :
    Nat → Nat → Djikstra → Djikstra
  | _, 0, s => s
  | k, n + 1, s =>
    if s.unsettled_nodes.isEmpty then s
    else Djikstra.runLoopOrd ord (k + 1) n (s.runStepOrd (ord k s.unsettled_nodes))

/-- `run` with the scan orders of the unsettled set as an explicit parameter;
`runOrd_insertion` below recovers `run` as the insertion-order instance. -/
def Djikstra.runOrd (s : Djikstra) (ord : Nat → List Vertex → List Vertex)
    (source : Vertex) : Djikstra :=
  Djikstra.runLoopOrd ord 0 (s.edges.length + 1) (s.runInit source)

/-- Backward walk of the `while` loop of `Djikstra::get_path`, with fuel.
Fuel `predecessors.length + 1` distinguishes the two behaviours of the source
loop exactly: if the walk has not reached a predecessor-free id within that
many steps it has revisited an id, and the walk, being a function of the
current id over an unchanging map, repeats forever.  `none` marks those
diverging executions. -/
def Djikstra.getPathAux (pred : List (String × Vertex)) :
    Nat → String → List String → Option (List String)
  | 0, _, _ => none
  | fuel + 1, step, path =>
    match mapFind step pred with
    | none => some path
    | some v => Djikstra.getPathAux pred fuel v.id (path ++ [v.id])

/-- Mirrors `Djikstra::get_path`: `some l` when the source loop returns `l`,
`none` when it spins forever on a corrupted predecessor chain. -/
def Djikstra.get_path (s : Djikstra) (target : Vertex) : Option (List String) :=
  match mapFind target.id s.predecessors with
  | none => some []
  | some _ =>
    (Djikstra.getPathAux s.predecessors (s.predecessors.length + 1) target.id
        [target.id]).map
      List.reverse

/-- The id reached after `n` steps of following predecessor links from `start`
(staying put once an id without an entry is reached): the sequence of values
taken by `step` in `Djikstra::get_path`. -/
def predChain (pred : List (String × Vertex)) (start : String) : Nat → String
  | 0 => start
  | n + 1 =>
    match mapFind (predChain pred start n) pred with
    | none => predChain pred start n
    | some v => v.id

/-- Spec-side notion of a directed path from the id `a` through the edge list
`E`: a sequence of edges of `E`, each starting where the previous one ended,
beginning at `a`.  Used to state «the minimum over all directed paths from the
source to `v` of the sum of the edge weights along the path». -/
inductive IsPath (E : List Edge) (a : String) : String → List Edge → Prop
  | nil : IsPath E a a []
  | snoc {b : String} {p : List Edge} (e : Edge) :
      IsPath E a b p → e ∈ E → e.source.id = b → IsPath E a e.destination.id (p ++ [e])

/-- Total weight of a path. -/
def pathSum (p : List Edge) : Int := (p.map (fun e => e.weight)).sum

/-- Ids visited by a path starting at `a`: the start id, then each edge's
destination id in order. -/
def pathIds (a : String) (p : List Edge) : List String :=
  a :: p.map (fun e => e.destination.id)

/-- Sum of all edge weights of an edge list. -/
def edgeWeightSum (E : List Edge) : Int := (E.map (fun e => e.weight)).sum

/-- Bounded realizing witness for a tentative-distance entry of the map
`dist`: a path from `a` whose visited ids never repeat, each intermediate id
carrying a distance entry at most the weight of the path prefix reaching it.
The relaxation loop maintains such a witness for every entry; visiting each id
at most once bounds the witness sum by the total edge weight, which is what
rules out `i32` overflow of the candidate addition on weight-bounded graphs. -/
inductive BWit (E : List Edge) (a : String) (dist : List (String × Int)) :
    String → List Edge → Prop
  | nil : BWit E a dist a []
  | snoc {b : String} {p : List Edge} (e : Edge) :
      BWit E a dist b p → e ∈ E → e.source.id = b →
      (∃ db, mapFind b dist = some db ∧ db ≤ pathSum p) →
      e.destination.id ∉ pathIds a p →
      BWit E a dist e.destination.id (p ++ [e])

section Scenarios

/-- Scenario vertices (tests construct every vertex with `name = id`). -/
def vA : Vertex := ⟨"A", "A"⟩

def vB : Vertex := ⟨"B", "B"⟩

def vC : Vertex := ⟨"C", "C"⟩

def vD : Vertex := ⟨"D", "D"⟩

def vE : Vertex := ⟨"E", "E"⟩

def vF : Vertex := ⟨"F", "F"⟩

/-- Scenario A of the spec (the `simple` test): 5 vertices, 8 edges. -/
def scenarioA : Graph :=
  ⟨[vA, vB, vC, vD, vE],
   [⟨"AB", vA, vB, 10⟩, ⟨"AD", vA, vD, 80⟩, ⟨"BE", vB, vE, 20⟩, ⟨"BC", vB, vC, 50⟩,
    ⟨"DC", vD, vC, 50⟩, ⟨"CE", vC, vE, 50⟩, ⟨"EC", vE, vC, 20⟩, ⟨"ED", vE, vD, 40⟩]⟩

/-- The engine state after `run(A)` on scenario A. -/
def runA : Djikstra := (Djikstra.new scenarioA).run vA

/-- Scenario B of the spec (the `simple2` test): 6 vertices, 9 edges. -/
def scenarioB : Graph :=
  ⟨[vA, vB, vC, vD, vE, vF],
   [⟨"AB", vA, vB, 10⟩, ⟨"AC", vA, vC, 20⟩, ⟨"BD", vB, vD, 50⟩, ⟨"BE", vB, vE, 10⟩,
    ⟨"CD", vC, vD, 20⟩, ⟨"CE", vC, vE, 33⟩, ⟨"DE", vD, vE, 20⟩, ⟨"DF", vD, vF, 2⟩,
    ⟨"EF", vE, vF, 1⟩]⟩

/-- The engine state after `run(A)` on scenario B. -/
def runB : Djikstra := (Djikstra.new scenarioB).run vA

end Scenarios

section BasicLemmas

/-- Folding a function that leaves an observation `P` unchanged leaves it
unchanged over a whole list. -/
theorem foldl_pres {α β γ : Type _} {f : β → α → β} (P : β → γ)
    (h : ∀ b a, P (f b a) = P b) : ∀ (l : List α) (b : β), P (l.foldl f b) = P b
  | [], _ => rfl
  | a :: l, b => by rw [List.foldl_cons, foldl_pres P h l, h]

theorem Djikstra.relaxOne_nodes (node : Vertex) (s : Djikstra) (t : Vertex) :
    (Djikstra.relaxOne node s t).nodes = s.nodes := by
  unfold Djikstra.relaxOne; split <;> rfl

theorem Djikstra.relaxOne_edges (node : Vertex) (s : Djikstra) (t : Vertex) :
    (Djikstra.relaxOne node s t).edges = s.edges := by
  unfold Djikstra.relaxOne; split <;> rfl

theorem Djikstra.relaxOne_settled (node : Vertex) (s : Djikstra) (t : Vertex) :
    (Djikstra.relaxOne node s t).settled_nodes = s.settled_nodes := by
  unfold Djikstra.relaxOne; split <;> rfl

theorem Djikstra.fmd_nodes (s : Djikstra) (node : Vertex) :
    (s.find_minimal_distance node).nodes = s.nodes :=
  foldl_pres (fun x => x.nodes) (fun b a => Djikstra.relaxOne_nodes node b a) _ s

theorem Djikstra.fmd_edges (s : Djikstra) (node : Vertex) :
    (s.find_minimal_distance node).edges = s.edges :=
  foldl_pres (fun x => x.edges) (fun b a => Djikstra.relaxOne_edges node b a) _ s

theorem Djikstra.fmd_settled (s : Djikstra) (node : Vertex) :
    (s.find_minimal_distance node).settled_nodes = s.settled_nodes :=
  foldl_pres (fun x => x.settled_nodes) (fun b a => Djikstra.relaxOne_settled node b a) _ s

theorem Djikstra.runStep_nodes (s : Djikstra) : s.runStep.nodes = s.nodes := by
  unfold Djikstra.runStep
  split
  · rw [Djikstra.fmd_nodes]
  · rfl

theorem Djikstra.runStep_edges (s : Djikstra) : s.runStep.edges = s.edges := by
  unfold Djikstra.runStep
  split
  · rw [Djikstra.fmd_edges]
  · rfl

theorem Djikstra.runLoop_nodes : ∀ (n : Nat) (s : Djikstra),
    (Djikstra.runLoop n s).nodes = s.nodes
  | 0, _ => rfl
  | n + 1, s => by
    rw [Djikstra.runLoop]
    split
    · rfl
    · rw [Djikstra.runLoop_nodes n, Djikstra.runStep_nodes]

theorem Djikstra.runLoop_edges : ∀ (n : Nat) (s : Djikstra),
    (Djikstra.runLoop n s).edges = s.edges
  | 0, _ => rfl
  | n + 1, s => by
    rw [Djikstra.runLoop]
    split
    · rfl
    · rw [Djikstra.runLoop_edges n, Djikstra.runStep_edges]

theorem Djikstra.run_nodes (s : Djikstra) (src : Vertex) : (s.run src).nodes = s.nodes := by
  unfold Djikstra.run; rw [Djikstra.runLoop_nodes]; rfl

theorem Djikstra.run_edges (s : Djikstra) (src : Vertex) : (s.run src).edges = s.edges := by
  unfold Djikstra.run; rw [Djikstra.runLoop_edges]; rfl

/-- The result of `run` is a function of the graph data (`nodes`, `edges`) and
the source only: all run-state is rebuilt from scratch. -/
theorem Djikstra.run_congr (s₁ s₂ : Djikstra) (src : Vertex)
    (hn : s₁.nodes = s₂.nodes) (he : s₁.edges = s₂.edges) : s₁.run src = s₂.run src := by
  unfold Djikstra.run Djikstra.runInit
  show Djikstra.runLoop (s₁.edges.length + 1)
      ⟨s₁.nodes, s₁.edges, [], listInsert src [], [], mapInsert src.id 0 []⟩ = _
  rw [hn, he]

end BasicLemmas

section ClaimC7

theorem Djikstra.runStepOrd_nodes (s : Djikstra) (scan : List Vertex) :
    (s.runStepOrd scan).nodes = s.nodes := by
  unfold Djikstra.runStepOrd
  split
  · rw [Djikstra.fmd_nodes]
  · rfl

theorem Djikstra.runStepOrd_edges (s : Djikstra) (scan : List Vertex) :
    (s.runStepOrd scan).edges = s.edges := by
  unfold Djikstra.runStepOrd
  split
  · rw [Djikstra.fmd_edges]
  · rfl

theorem Djikstra.runLoopOrd_nodes (ord : Nat → List Vertex → List Vertex) :
    ∀ (k n : Nat) (s : Djikstra), (Djikstra.runLoopOrd ord k n s).nodes = s.nodes
  | _, 0, _ => rfl
  | k, n + 1, s => by
    rw [Djikstra.runLoopOrd]
    split
    · rfl
    · rw [Djikstra.runLoopOrd_nodes ord (k + 1) n, Djikstra.runStepOrd_nodes]

theorem Djikstra.runLoopOrd_edges (ord : Nat → List Vertex → List Vertex) :
    ∀ (k n : Nat) (s : Djikstra), (Djikstra.runLoopOrd ord k n s).edges = s.edges
  | _, 0, _ => rfl
  | k, n + 1, s => by
    rw [Djikstra.runLoopOrd]
    split
    · rfl
    · rw [Djikstra.runLoopOrd_edges ord (k + 1) n, Djikstra.runStepOrd_edges]

theorem Djikstra.runOrd_nodes (s : Djikstra) (ord : Nat → List Vertex → List Vertex)
    (src : Vertex) : (s.runOrd ord src).nodes = s.nodes := by
  unfold Djikstra.runOrd
  rw [Djikstra.runLoopOrd_nodes]
  rfl

theorem Djikstra.runOrd_edges (s : Djikstra) (ord : Nat → List Vertex → List Vertex)
    (src : Vertex) : (s.runOrd ord src).edges = s.edges := by
  unfold Djikstra.runOrd
  rw [Djikstra.runLoopOrd_edges]
  rfl

/-- The result of `runOrd` is a function of the graph data (`nodes`, `edges`),
the scan orders and the source only: all run-state is rebuilt from scratch. -/
theorem Djikstra.runOrd_congr (s₁ s₂ : Djikstra) (ord : Nat → List Vertex → List Vertex)
    (src : Vertex) (hn : s₁.nodes = s₂.nodes) (he : s₁.edges = s₂.edges) :
    s₁.runOrd ord src = s₂.runOrd ord src := by
  unfold Djikstra.runOrd Djikstra.runInit
  show Djikstra.runLoopOrd ord 0 (s₁.edges.length + 1)
      ⟨s₁.nodes, s₁.edges, [], listInsert src [], [], mapInsert src.id 0 []⟩ = _
  rw [hn, he]

theorem Djikstra.runLoopOrd_insertion : ∀ (k n : Nat) (s : Djikstra),
    Djikstra.runLoopOrd (fun _ l => l) k n s = Djikstra.runLoop n s
  | _, 0, _ => rfl
  | k, n + 1, s => by
    rw [Djikstra.runLoopOrd, Djikstra.runLoop]
    split
    · rfl
    · rw [Djikstra.runLoopOrd_insertion (k + 1) n]
      rfl

/-- With insertion order as every scan order, `runOrd` is exactly `run`. -/
theorem Djikstra.runOrd_insertion (s : Djikstra) (src : Vertex) :
    s.runOrd (fun _ l => l) src = s.run src := by
  unfold Djikstra.runOrd Djikstra.run
  exact Djikstra.runLoopOrd_insertion 0 _ _

/-- Diamond graph with an equal-cost tie: A→B and A→C both weigh 1, and B→D
and C→D both weigh 1, so B and C tie at distance 1 and D is reachable at
cost 2 through either. -/
def diamondGraph : Graph :=
  ⟨[vA, vB, vC, vD],
   [⟨"AB", vA, vB, 1⟩, ⟨"AC", vA, vC, 1⟩, ⟨"BD", vB, vD, 1⟩, ⟨"CD", vC, vD, 1⟩]⟩

/-- C7 counterexample: each call of `run` scans the unsettled `HashSet` in the
random order of a fresh `RandomState`, so two successive runs need not use the
same tie-break.  On the tie diamond, scanning in insertion order settles `B`
before `C` and records `pred[D] = B`, while scanning in the reversed order —
also a permutation of the same set, so an order a hash seed can produce —
settles `C` first and records `pred[D] = C`: the two runs return different
`get_path(D)` results (`[A, B, D]` versus `[A, C, D]`), refuting «identical
`get_path` results for every target».  The final distance maps still agree. -/
theorem run_path_depends_on_scan_order :
    ((Djikstra.new diamondGraph).runOrd (fun _ l => l) vA).get_path vD =
      some ["A", "B", "D"] ∧
    ((Djikstra.new diamondGraph).runOrd (fun _ l => l.reverse) vA).get_path vD =
      some ["A", "C", "D"] ∧
    ((Djikstra.new diamondGraph).runOrd (fun _ l => l.reverse) vA).distance =
      ((Djikstra.new diamondGraph).runOrd (fun _ l => l) vA).distance ∧
    (∀ l : List Vertex, l.reverse.Perm l) := by
  refine ⟨by decide, by decide, by decide, ?_⟩
  intro l
  exact l.reverse_perm

/-- C7 amended: `run` rebuilds all four run-state fields from scratch and
reads only the graph data, so no state from the first run influences the
second: two successive runs that scan the unsettled set in the same orders
(the only implementation-defined input, drawn from the hash seed) yield
identical distance maps and identical `get_path` results for every target.
With different tie-breaking scan orders the `get_path` results can differ on
graphs with equal-cost alternatives, as the counterexample shows. -/
theorem Djikstra.runOrd_idempotent (s : Djikstra)
    (ord : Nat → List Vertex → List Vertex) (src : Vertex) :
    ((s.runOrd ord src).runOrd ord src).distance = (s.runOrd ord src).distance ∧
    ∀ t : Vertex, ((s.runOrd ord src).runOrd ord src).get_path t =
      (s.runOrd ord src).get_path t := by
  have h : (s.runOrd ord src).runOrd ord src = s.runOrd ord src :=
    Djikstra.runOrd_congr (s.runOrd ord src) s ord src
      (Djikstra.runOrd_nodes s ord src) (Djikstra.runOrd_edges s ord src)
  rw [h]
  exact ⟨rfl, fun _ => rfl⟩

end ClaimC7

section ClaimC2

/-- C2: on scenario A with source `A`, the final distance map holds exactly
`A = 0`, `B = 10`, `E = 30`, `C = 50`, `D = 70`, and `get_path(E)` returns
`[A, B, E]`. -/
theorem scenarioA_results :
    mapFind "A" runA.distance = some 0 ∧ mapFind "B" runA.distance = some 10 ∧
    mapFind "E" runA.distance = some 30 ∧ mapFind "C" runA.distance = some 50 ∧
    mapFind "D" runA.distance = some 70 ∧
    runA.distance.Perm [("A", (0 : Int)), ("B", 10), ("E", 30), ("C", 50), ("D", 70)] ∧
    runA.get_path vE = some ["A", "B", "E"] := by
  decide

end ClaimC2

section ClaimC6

/-- C6 counterexample: on scenario B with source `A` the engine computes
`distance[F] = 21` (via A→B→E→F, 10+10+1), not the claimed 22. -/
theorem scenarioB_distF_ne_22 :
    mapFind "F" runB.distance = some 21 ∧ (21 : Int) ≠ 22 := by
  decide

/-- C6 amended: on scenario B with source `A`, the distance entry for `F`
equals 21. -/
theorem scenarioB_distF : mapFind "F" runB.distance = some 21 := by
  decide

end ClaimC6

section ClaimC3

/-- Two vertices sharing the id `A` with different names. -/
def vAx : Vertex := ⟨"A", "x"⟩

/-- See `vAx`. -/
def vAy : Vertex := ⟨"A", "y"⟩

/-- An engine state whose settled set holds `vAx`. -/
def settledAx : Djikstra :=
  { nodes := [], edges := [], settled_nodes := [vAx], unsettled_nodes := [],
    predecessors := [], distance := [] }

/-- C3 counterexample: vertices with equal `id` but different `name` are *not*
equal (the derived equality compares both fields), and they do not share a slot
in the settled set: `vAy` is not settled in a state whose settled set holds
`vAx`. -/
theorem vertex_eq_not_by_id_alone :
    vAx.id = vAy.id ∧ vAx ≠ vAy ∧
    settledAx.is_settled vAx = true ∧ settledAx.is_settled vAy = false := by
  decide

/-- C3 amended: two `Vertex` values are equal, and occupy one slot in the
settled and unsettled sets, iff *both* their `id` and their `name` fields match
(full structural equality, as derived in the source). -/
theorem vertex_eq_structural :
    (∀ v w : Vertex, v = w ↔ v.id = w.id ∧ v.name = w.name) ∧
    (∀ (s : Djikstra) (v : Vertex),
      s.is_settled v = true ↔ ∃ u ∈ s.settled_nodes, u.id = v.id ∧ u.name = v.name) := by
  constructor
  · intro v w
    constructor
    · rintro rfl; exact ⟨rfl, rfl⟩
    · rintro ⟨h1, h2⟩; cases v; cases w; simp_all
  · intro s v
    simp only [Djikstra.is_settled, decide_eq_true_eq]
    constructor
    · intro hv; exact ⟨v, hv, rfl, rfl⟩
    · rintro ⟨u, hu, h1, h2⟩
      have : u = v := by cases u; cases v; simp_all
      rwa [this] at hu

end ClaimC3

section ClaimC10

/-- C10: `get_path` depends only on the `id` field of its target argument —
path reconstruction keys the predecessor map by id strings alone. -/
theorem Djikstra.get_path_id_only (s : Djikstra) (t₁ t₂ : Vertex) (h : t₁.id = t₂.id) :
    s.get_path t₁ = s.get_path t₂ := by
  unfold Djikstra.get_path
  rw [h]

/-- A vertex with the id of `vE` but another name. -/
def vEx : Vertex := ⟨"E", "X"⟩

/-- Witness for C10: on the scenario-A run, targets `⟨E, E⟩` and `⟨E, X⟩` give
the same reconstructed path. -/
theorem get_path_id_only_witness :
    vE.id = vEx.id ∧ runA.get_path vE = runA.get_path vEx :=
  ⟨rfl, Djikstra.get_path_id_only runA vE vEx rfl⟩

end ClaimC10

section ClaimC5

theorem predChain_step (pred : List (String × Vertex)) (start : String) (v : Vertex)
    (h : mapFind start pred = some v) :
    ∀ n, predChain pred start (n + 1) = predChain pred v.id n
  | 0 => by simp [predChain, h]
  | n + 1 => by
    have ih := predChain_step pred start v h n
    show (match mapFind (predChain pred start (n + 1)) pred with
          | none => predChain pred start (n + 1)
          | some v => v.id) =
        (match mapFind (predChain pred v.id n) pred with
          | none => predChain pred v.id n
          | some v => v.id)
    rw [ih]

theorem getPathAux_isSome_of (pred : List (String × Vertex)) :
    ∀ (fuel : Nat) (step : String) (path : List String),
    (∃ n < fuel, mapFind (predChain pred step n) pred = none) →
    (Djikstra.getPathAux pred fuel step path).isSome = true
  | 0, _, _, h => absurd h (by simp)
  | fuel + 1, step, path, h => by
    rw [Djikstra.getPathAux]
    rcases hf : mapFind step pred with _ | v
    · rfl
    · obtain ⟨n, hn, hnone⟩ := h
      match n with
      | 0 => rw [predChain] at hnone; rw [hf] at hnone; exact absurd hnone (by simp)
      | m + 1 =>
        rw [predChain_step pred step v hf] at hnone
        exact getPathAux_isSome_of pred fuel v.id _ ⟨m, Nat.lt_of_succ_lt_succ hn, hnone⟩

theorem getPathAux_isSome_then (pred : List (String × Vertex)) :
    ∀ (fuel : Nat) (step : String) (path : List String),
    (Djikstra.getPathAux pred fuel step path).isSome = true →
    ∃ n < fuel, mapFind (predChain pred step n) pred = none
  | 0, _, _, h => by rw [Djikstra.getPathAux] at h; exact absurd h (by simp)
  | fuel + 1, step, path, h => by
    rw [Djikstra.getPathAux] at h
    rcases hf : mapFind step pred with _ | v
    · exact ⟨0, Nat.succ_pos fuel, by rw [predChain]; exact hf⟩
    · rw [hf] at h
      obtain ⟨m, hm, hnone⟩ := getPathAux_isSome_then pred fuel v.id _ h
      exact ⟨m + 1, Nat.succ_lt_succ hm,
        by rw [predChain_step pred step v hf]; exact hnone⟩

/-- C5 amended: `get_path(target)` terminates exactly when the backward
predecessor walk from `target` reaches, within `predecessors.length` steps, an
id with no predecessor entry.  Reconstruction does stop once it reaches a
vertex with no predecessor entry, but a corrupted cyclic predecessor chain
never reaches one and the source loop then spins forever (`none` here). -/
theorem Djikstra.get_path_isSome_iff (s : Djikstra) (t : Vertex) :
    (s.get_path t).isSome = true ↔
    ∃ n ≤ s.predecessors.length,
      mapFind (predChain s.predecessors t.id n) s.predecessors = none := by
  unfold Djikstra.get_path
  split
  next hf =>
    simp only [Option.isSome_some, true_iff]
    exact ⟨0, Nat.zero_le _, by rw [predChain]; exact hf⟩
  next v hf =>
    have hmap : ∀ x : Option (List String), (x.map List.reverse).isSome = x.isSome := by
      intro x; cases x <;> rfl
    rw [hmap]
    constructor
    · intro h
      obtain ⟨n, hn, hnone⟩ := getPathAux_isSome_then s.predecessors _ t.id _ h
      exact ⟨n, Nat.lt_succ_iff.mp hn, hnone⟩
    · rintro ⟨n, hn, hnone⟩
      exact getPathAux_isSome_of s.predecessors _ t.id _ ⟨n, Nat.lt_succ_iff.mpr hn, hnone⟩

/-- A corrupted engine state whose predecessor map is the two-cycle
`A ↦ B ↦ A`, reaching no vertex without a predecessor entry. -/
def cycState : Djikstra :=
  { nodes := [], edges := [], settled_nodes := [], unsettled_nodes := [],
    predecessors := [("A", vB), ("B", vA)], distance := [] }

theorem cyc_chain : ∀ n, predChain cycState.predecessors "A" n = "A" ∨
    predChain cycState.predecessors "A" n = "B"
  | 0 => Or.inl rfl
  | n + 1 => by
    rcases cyc_chain n with h | h <;>
      · rw [predChain, h]
        simp [cycState, mapFind, vA, vB]

/-- C5 counterexample: on the cyclic predecessor map `A ↦ B ↦ A` the walk from
`A` never reaches a vertex without a predecessor entry, so the source `while`
loop never exits: `get_path(A)` does not terminate (modelled as `none`). -/
theorem get_path_cycle_diverges :
    cycState.get_path vA = none ∧
    ¬ ∃ n, mapFind (predChain cycState.predecessors "A" n) cycState.predecessors = none := by
  constructor
  · decide
  · rintro ⟨n, hn⟩
    rcases cyc_chain n with h | h <;> rw [h] at hn <;>
      simp [cycState, mapFind] at hn

end ClaimC5

section ClaimC14Counterexamples

/-- Source vertex of the parallel-edge counterexample graph. -/
def vU : Vertex := ⟨"u", "u"⟩

/-- Destination vertex of the parallel-edge counterexample graph. -/
def vT : Vertex := ⟨"t", "t"⟩

/-- First parallel edge `u → t`, weight 3. -/
def e3 : Edge := ⟨"p1", vU, vT, 3⟩

/-- Second parallel edge `u → t`, weight 9: being last in the edge list, its
weight is the one `get_distance` returns for the pair `(u, t)`. -/
def e9 : Edge := ⟨"p2", vU, vT, 9⟩

/-- Graph with exactly two parallel edges `u → t` of weights 3 then 9. -/
def parGraph : Graph := ⟨[vU, vT], [e3, e9]⟩

/-- The engine state after `run(u)` on `parGraph`. -/
def runPar : Djikstra := (Djikstra.new parGraph).run vU

/-- C4 counterexample: with parallel edges `u → t` of weights 3 then 9 the
final distance of `t` is 9 — the weight of the *last* matching edge, not the
minimum 3: `get_distance` overwrites the weight on every matching edge, so
every relaxation of `t` uses the last parallel weight. -/
theorem parallel_min_fails :
    mapFind "t" runPar.distance = some 9 ∧ (3 : Int) < 9 := by
  decide

/-- C1 counterexample: on `parGraph` (non-negative weights) the vertex `t` is
reachable and the path `[e3]` from `u` to `t` has weight 3, strictly below the
computed distance entry 9, so the distance entry is not the minimum over all
directed paths. -/
theorem distance_not_min_over_paths :
    mapFind "t" runPar.distance = some 9 ∧
    IsPath (Djikstra.new parGraph).edges "u" "t" [e3] ∧
    pathSum [e3] = 3 ∧ (3 : Int) < 9 := by
  refine ⟨by decide, ?_, by decide, by decide⟩
  exact IsPath.snoc e3 IsPath.nil (by simp [Djikstra.new, parGraph]) rfl

end ClaimC14Counterexamples

section MapSetLemmas

theorem mapFind_mapInsert_self {α : Type _} (k : String) (v : α) :
    ∀ m : List (String × α), mapFind k (mapInsert k v m) = some v
  | [] => by simp [mapInsert, mapFind]
  | (k', v') :: m => by
    by_cases h : k' = k
    · simp [mapInsert, h, mapFind]
    · simp [mapInsert, h, mapFind, mapFind_mapInsert_self k v m]

theorem mapFind_mapInsert_ne {α : Type _} (k k' : String) (v : α) (h : k ≠ k') :
    ∀ m : List (String × α), mapFind k' (mapInsert k v m) = mapFind k' m
  | [] => by simp [mapInsert, mapFind, h]
  | (k'', v'') :: m => by
    by_cases h2 : k'' = k
    · subst h2
      simp [mapInsert, mapFind, h]
    · simp only [mapInsert, if_neg h2, mapFind]
      rw [mapFind_mapInsert_ne k k' v h m]

theorem mapFind_mapInsert_cases {α : Type _} (k k' : String) (v : α)
    (m : List (String × α)) :
    mapFind k' (mapInsert k v m) = if k = k' then some v else mapFind k' m := by
  by_cases h : k = k'
  · subst h; rw [if_pos rfl, mapFind_mapInsert_self]
  · rw [if_neg h, mapFind_mapInsert_ne k k' v h]

theorem mem_listInsert (v w : Vertex) (s : List Vertex) :
    w ∈ listInsert v s ↔ w ∈ s ∨ w = v := by
  unfold listInsert
  split
  next h =>
    constructor
    · exact Or.inl
    · rintro (hw | rfl)
      · exact hw
      · exact h
  next h => simp

theorem listInsert_nodup (v : Vertex) (s : List Vertex) (h : s.Nodup) :
    (listInsert v s).Nodup := by
  unfold listInsert
  split
  next => exact h
  next hv => simp [List.nodup_append, h, hv]

theorem listInsert_length (v : Vertex) (s : List Vertex) (h : v ∉ s) :
    (listInsert v s).length = s.length + 1 := by
  unfold listInsert
  rw [if_neg h, List.length_append, List.length_singleton]

theorem mem_listRemove (v w : Vertex) (s : List Vertex) :
    w ∈ listRemove v s ↔ w ∈ s ∧ w ≠ v := by
  unfold listRemove
  simp [List.mem_filter]

theorem listRemove_nodup (v : Vertex) (s : List Vertex) (h : s.Nodup) :
    (listRemove v s).Nodup := h.filter _

end MapSetLemmas

section DistLemmas

/-- The tentative distance stored for an id, with the `i32::MAX` sentinel for
absent entries — `get_shortest_distance` as a function of the id. -/
def distOr (s : Djikstra) (id : String) : Int :=
  match mapFind id s.distance with
  | some d => d
  | none => i32MAX

theorem Djikstra.gsd_eq (s : Djikstra) (v : Vertex) :
    s.get_shortest_distance v = distOr s v.id := rfl

theorem distOr_eq_of_find {s : Djikstra} {id : String} {d : Int}
    (h : mapFind id s.distance = some d) : distOr s id = d := by
  unfold distOr
  rw [h]

theorem distOr_eq_of_none {s : Djikstra} {id : String}
    (h : mapFind id s.distance = none) : distOr s id = i32MAX := by
  unfold distOr
  rw [h]

theorem distOr_congr {s s' : Djikstra} (id : String)
    (h : mapFind id s'.distance = mapFind id s.distance) : distOr s' id = distOr s id := by
  unfold distOr
  rw [h]

theorem distOr_le_MAX {s : Djikstra}
    (hl : ∀ id d, mapFind id s.distance = some d → d < i32MAX) (id : String) :
    distOr s id ≤ i32MAX := by
  unfold distOr
  rcases h : mapFind id s.distance with _ | d
  · exact le_refl _
  · exact le_of_lt (hl id d h)

theorem foldl_minStep_isSome (s : Djikstra) :
    ∀ (l : List Vertex) (acc : Vertex), (l.foldl s.minStep (some acc)).isSome = true
  | [], _ => rfl
  | v :: l, acc => by
    rw [List.foldl_cons]
    simp only [Djikstra.minStep]
    split
    · exact foldl_minStep_isSome s l v
    · exact foldl_minStep_isSome s l acc

theorem foldl_minStep_spec (s : Djikstra) :
    ∀ (l : List Vertex) (acc r : Vertex), l.foldl s.minStep (some acc) = some r →
    (r ∈ l ∨ r = acc) ∧ s.get_shortest_distance r ≤ s.get_shortest_distance acc ∧
      ∀ u ∈ l, s.get_shortest_distance r ≤ s.get_shortest_distance u
  | [], acc, r, h => by
    rw [List.foldl_nil] at h
    injection h with h
    subst h
    exact ⟨Or.inr rfl, le_refl _, fun u hu => absurd hu (List.not_mem_nil u)⟩
  | v :: l, acc, r, h => by
    rw [List.foldl_cons] at h
    simp only [Djikstra.minStep] at h
    by_cases hc : s.get_shortest_distance v < s.get_shortest_distance acc
    · rw [if_pos hc] at h
      obtain ⟨hmem, hle, hall⟩ := foldl_minStep_spec s l v r h
      refine ⟨?_, le_trans hle (le_of_lt hc), ?_⟩
      · rcases hmem with h1 | rfl
        · exact Or.inl (List.mem_cons_of_mem v h1)
        · exact Or.inl (List.mem_cons_self r l)
      · intro u hu
        rcases List.mem_cons.mp hu with rfl | hu
        · exact hle
        · exact hall u hu
    · rw [if_neg hc] at h
      obtain ⟨hmem, hle, hall⟩ := foldl_minStep_spec s l acc r h
      refine ⟨?_, hle, ?_⟩
      · rcases hmem with h1 | rfl
        · exact Or.inl (List.mem_cons_of_mem v h1)
        · exact Or.inr rfl
      · intro u hu
        rcases List.mem_cons.mp hu with rfl | hu
        · exact le_trans hle (le_of_not_lt hc)
        · exact hall u hu

theorem Djikstra.get_minimum_isSome (s : Djikstra) (l : List Vertex) (h : l ≠ []) :
    (s.get_minimum l).isSome = true := by
  unfold Djikstra.get_minimum
  cases l with
  | nil => exact absurd rfl h
  | cons v t =>
    rw [List.foldl_cons]
    exact foldl_minStep_isSome s t v

theorem Djikstra.get_minimum_mem (s : Djikstra) (l : List Vertex) (r : Vertex)
    (h : s.get_minimum l = some r) : r ∈ l := by
  unfold Djikstra.get_minimum at h
  cases l with
  | nil => exact absurd h (by simp)
  | cons v t =>
    rw [List.foldl_cons] at h
    obtain ⟨hmem, _, _⟩ := foldl_minStep_spec s t v r h
    rcases hmem with h1 | rfl
    · exact List.mem_cons_of_mem v h1
    · exact List.mem_cons_self r t

theorem Djikstra.get_minimum_le (s : Djikstra) (l : List Vertex) (r : Vertex)
    (h : s.get_minimum l = some r) :
    ∀ u ∈ l, s.get_shortest_distance r ≤ s.get_shortest_distance u := by
  unfold Djikstra.get_minimum at h
  cases l with
  | nil => exact absurd h (by simp)
  | cons v t =>
    rw [List.foldl_cons] at h
    obtain ⟨_, hle, hall⟩ := foldl_minStep_spec s t v r h
    intro u hu
    rcases List.mem_cons.mp hu with rfl | hu
    · exact hle
    · exact hall u hu

theorem foldl_weightStep_nonneg (node target : Vertex) :
    ∀ (l : List Edge) (acc : Int), 0 ≤ acc → (∀ e ∈ l, 0 ≤ e.weight) →
    0 ≤ l.foldl (Djikstra.weightStep node target) acc
  | [], _, ha, _ => ha
  | e :: l, acc, ha, hl => by
    rw [List.foldl_cons]
    refine foldl_weightStep_nonneg node target l _ ?_
      (fun e' he' => hl e' (List.mem_cons_of_mem e he'))
    unfold Djikstra.weightStep
    split
    · exact hl e (List.mem_cons_self e l)
    · exact ha

theorem Djikstra.get_distance_nonneg (s : Djikstra) (node target : Vertex)
    (hw : ∀ e ∈ s.edges, 0 ≤ e.weight) : 0 ≤ s.get_distance node target :=
  foldl_weightStep_nonneg node target s.edges 0 (le_refl 0) hw

theorem foldl_weightStep_no_match (node target : Vertex) :
    ∀ (l : List Edge) (acc : Int),
    (∀ e ∈ l, ¬(e.source.id = node.id ∧ e.destination.id = target.id)) →
    l.foldl (Djikstra.weightStep node target) acc = acc
  | [], _, _ => rfl
  | e :: l, acc, h => by
    rw [List.foldl_cons]
    have he : Djikstra.weightStep node target acc e = acc := by
      unfold Djikstra.weightStep
      rw [if_neg (h e (List.mem_cons_self e l))]
    rw [he]
    exact foldl_weightStep_no_match node target l acc
      (fun e' he' => h e' (List.mem_cons_of_mem e he'))

theorem foldl_weightStep_matches (node target : Vertex) :
    ∀ (l : List Edge) (acc : Int),
    (∃ e ∈ l, e.source.id = node.id ∧ e.destination.id = target.id) →
    ∃ e ∈ l, e.source.id = node.id ∧ e.destination.id = target.id ∧
      l.foldl (Djikstra.weightStep node target) acc = e.weight
  | [], _, h => absurd h (by simp)
  | e :: l, acc, h => by
    rw [List.foldl_cons]
    by_cases hex : ∃ e' ∈ l, e'.source.id = node.id ∧ e'.destination.id = target.id
    · obtain ⟨e', he', hs', hd', hw'⟩ :=
        foldl_weightStep_matches node target l (Djikstra.weightStep node target acc e) hex
      exact ⟨e', List.mem_cons_of_mem e he', hs', hd', hw'⟩
    · have hmatch : e.source.id = node.id ∧ e.destination.id = target.id := by
        obtain ⟨e₀, he₀, hm₀⟩ := h
        rcases List.mem_cons.mp he₀ with rfl | he₀
        · exact hm₀
        · exact absurd ⟨e₀, he₀, hm₀⟩ hex
      have hstep : Djikstra.weightStep node target acc e = e.weight := by
        unfold Djikstra.weightStep
        rw [if_pos hmatch]
      rw [hstep, foldl_weightStep_no_match node target l e.weight
        (fun e' he' hm' => hex ⟨e', he', hm'⟩)]
      exact ⟨e, List.mem_cons_self e l, hmatch.1, hmatch.2, rfl⟩

theorem Djikstra.get_distance_matches (s : Djikstra) (node target : Vertex)
    (h : ∃ e ∈ s.edges, e.source.id = node.id ∧ e.destination.id = target.id) :
    ∃ e ∈ s.edges, e.source.id = node.id ∧ e.destination.id = target.id ∧
      s.get_distance node target = e.weight := by
  obtain ⟨e, he, hs, hd, hw⟩ := foldl_weightStep_matches node target s.edges 0 h
  exact ⟨e, he, hs, hd, hw⟩

theorem Djikstra.get_distance_congr (s s' : Djikstra) (h : s.edges = s'.edges)
    (node target : Vertex) : s.get_distance node target = s'.get_distance node target := by
  unfold Djikstra.get_distance
  rw [h]

/-- When all parallel edges between an ordered id pair carry the same weight,
`get_distance` returns exactly the weight of any matching edge. -/
theorem Djikstra.get_distance_eq_weight (s : Djikstra)
    (hpf : ∀ e f, e ∈ s.edges → f ∈ s.edges → e.source.id = f.source.id →
      e.destination.id = f.destination.id → e.weight = f.weight)
    (node target : Vertex) (e : Edge) (he : e ∈ s.edges) (hs : e.source.id = node.id)
    (hd : e.destination.id = target.id) : s.get_distance node target = e.weight := by
  obtain ⟨e', he', hs', hd', hw'⟩ :=
    s.get_distance_matches node target ⟨e, he, hs, hd⟩
  rw [hw']
  exact hpf e' e he' he (hs'.trans hs.symm) (hd'.trans hd.symm)

theorem Djikstra.mem_get_neighbors (s : Djikstra) (node t : Vertex) :
    t ∈ s.get_neighbors node ↔
    ∃ e ∈ s.edges, e.source.id = node.id ∧ e.destination = t ∧ t ∉ s.settled_nodes := by
  unfold Djikstra.get_neighbors
  simp only [List.mem_map, List.mem_filter, Bool.and_eq_true, decide_eq_true_eq,
    Bool.not_eq_true', Djikstra.is_settled, decide_eq_false_iff_not]
  constructor
  · rintro ⟨e, ⟨he, hs, hns⟩, rfl⟩
    exact ⟨e, he, hs, rfl, hns⟩
  · rintro ⟨e, he, hs, rfl, hns⟩
    exact ⟨e, ⟨he, hs, hns⟩, rfl⟩

end DistLemmas

section PathLemmas

theorem pathSum_nil : pathSum [] = 0 := rfl

theorem pathSum_append_single (p : List Edge) (e : Edge) :
    pathSum (p ++ [e]) = pathSum p + e.weight := by
  simp [pathSum]

theorem pathSum_nonneg {E : List Edge} {a b : String} {p : List Edge}
    (hw : ∀ e ∈ E, 0 ≤ e.weight) (hp : IsPath E a b p) : 0 ≤ pathSum p := by
  induction hp with
  | nil => exact le_refl 0
  | snoc e _ he _ ih =>
    rw [pathSum_append_single]
    exact add_nonneg ih (hw e he)

/-- `wrap32` is the identity on values already inside the `i32` range. -/
theorem wrap32_eq_self {n : Int} (h1 : -2147483648 ≤ n) (h2 : n ≤ 2147483647) :
    wrap32 n = n := by
  unfold wrap32
  have h3 : (0 : Int) ≤ n + 2147483648 := by linarith
  have h4 : n + 2147483648 < 4294967296 := by linarith
  rw [Int.emod_eq_of_lt h3 h4]
  ring

/-- A bounded witness is in particular a directed path. -/
theorem BWit.isPath {E : List Edge} {a : String} {dist : List (String × Int)} :
    ∀ {b : String} {p : List Edge}, BWit E a dist b p → IsPath E a b p := by
  intro b p h
  induction h with
  | nil => exact IsPath.nil
  | snoc e _ he hsrc _ _ ih => exact IsPath.snoc e ih he hsrc

/-- Bounded witnesses survive any pointwise decrease of the distance map. -/
theorem BWit.mono {E : List Edge} {a : String} {dist dist' : List (String × Int)}
    (hdec : ∀ id d, mapFind id dist = some d →
      ∃ d', mapFind id dist' = some d' ∧ d' ≤ d) :
    ∀ {b : String} {p : List Edge}, BWit E a dist b p → BWit E a dist' b p := by
  intro b p h
  induction h with
  | nil => exact BWit.nil
  | snoc e _ he hsrc hdb hfresh ih =>
    obtain ⟨db, hdb1, hdb2⟩ := hdb
    obtain ⟨db', hdb1', hdb2'⟩ := hdec _ db hdb1
    exact BWit.snoc e ih he hsrc ⟨db', hdb1', le_trans hdb2' hdb2⟩ hfresh

theorem BWit.mem_edges {E : List Edge} {a : String} {dist : List (String × Int)} :
    ∀ {b : String} {p : List Edge}, BWit E a dist b p → ∀ e ∈ p, e ∈ E := by
  intro b p h
  induction h with
  | nil => intro e he; exact absurd he (List.not_mem_nil e)
  | snoc e _ he _ _ _ ih =>
    intro f hf
    rcases List.mem_append.mp hf with hf | hf
    · exact ih f hf
    · rw [List.mem_singleton] at hf
      exact hf ▸ he

theorem BWit.ids_nodup {E : List Edge} {a : String} {dist : List (String × Int)} :
    ∀ {b : String} {p : List Edge}, BWit E a dist b p → (pathIds a p).Nodup := by
  intro b p h
  induction h with
  | nil => simp [pathIds]
  | @snoc b' p' e _ _ _ _ hfresh ih =>
    have heq : pathIds a (p' ++ [e]) = pathIds a p' ++ [e.destination.id] := by
      simp [pathIds]
    rw [heq]
    refine List.Nodup.append ih (List.nodup_singleton _) ?_
    intro x hx hxe
    rw [List.mem_singleton] at hxe
    exact hfresh (hxe ▸ hx)

/-- Every id visited strictly inside a bounded witness either is its endpoint
or carries a distance entry at most the witness sum. -/
theorem BWit.visited_bound {E : List Edge} {a : String} {dist : List (String × Int)}
    (hw : ∀ e ∈ E, 0 ≤ e.weight) :
    ∀ {b : String} {p : List Edge}, BWit E a dist b p →
    ∀ m ∈ p.map (fun e => e.destination.id),
      m = b ∨ ∃ dm, mapFind m dist = some dm ∧ dm ≤ pathSum p := by
  intro b p h
  induction h with
  | nil => intro m hm; exact absurd hm (by simp)
  | @snoc b' p' e _ he _ hdb _ ih =>
    intro m hm
    have hstep : pathSum p' ≤ pathSum (p' ++ [e]) := by
      rw [pathSum_append_single]
      exact le_add_of_nonneg_right (hw e he)
    rw [List.map_append, List.mem_append] at hm
    rcases hm with hm | hm
    · rcases ih m hm with rfl | ⟨dm, hdm, hle⟩
      · obtain ⟨db, hdb1, hdb2⟩ := hdb
        exact Or.inr ⟨db, hdb1, le_trans hdb2 hstep⟩
      · exact Or.inr ⟨dm, hdm, le_trans hle hstep⟩
    · simp only [List.map_cons, List.map_nil, List.mem_singleton] at hm
      exact Or.inl hm

/-- A duplicate-free selection of edges weighs at most the whole edge list
(non-negative weights). -/
theorem nodup_subset_sum_le :
    ∀ (p E : List Edge), p.Nodup → (∀ e ∈ p, e ∈ E) → (∀ e ∈ E, 0 ≤ e.weight) →
    (p.map (fun e => e.weight)).sum ≤ (E.map (fun e => e.weight)).sum
  | [], E, _, _, hE => by
    rw [List.map_nil, List.sum_nil]
    refine List.Sublist.sum_le_sum (List.nil_sublist (E.map (fun e => e.weight))) ?_
    intro x hx
    obtain ⟨e, he, rfl⟩ := List.mem_map.mp hx
    exact hE e he
  | e :: p, E, hnd, hsub, hE => by
    have he : e ∈ E := hsub e (List.mem_cons_self e p)
    have hperm : E.Perm (e :: E.erase e) := List.perm_cons_erase he
    have hsum : (E.map (fun f => f.weight)).sum =
        e.weight + (((E.erase e).map (fun f => f.weight)).sum) := by
      rw [(hperm.map (fun f => f.weight)).sum_eq]
      rw [List.map_cons, List.sum_cons]
    rw [List.map_cons, List.sum_cons, hsum]
    have hnd' : p.Nodup := (List.nodup_cons.mp hnd).2
    have hmem : e ∉ p := (List.nodup_cons.mp hnd).1
    have hsub' : ∀ x ∈ p, x ∈ E.erase e := by
      intro x hx
      exact (List.mem_erase_of_ne (fun hxe => hmem (by rw [← hxe]; exact hx))).mpr
        (hsub x (List.mem_cons_of_mem e hx))
    have hE' : ∀ x ∈ E.erase e, 0 ≤ x.weight :=
      fun x hx => hE x (List.mem_of_mem_erase hx)
    have hrec := nodup_subset_sum_le p (E.erase e) hnd' hsub' hE'
    linarith

/-- The sum of a bounded witness is at most the total edge weight. -/
theorem BWit.sum_le_total {E : List Edge} {a : String} {dist : List (String × Int)}
    {b : String} {p : List Edge} (hw : ∀ e ∈ E, 0 ≤ e.weight)
    (h : BWit E a dist b p) : pathSum p ≤ edgeWeightSum E := by
  have h1 : (p.map (fun e => e.destination.id)).Nodup := (List.nodup_cons.mp h.ids_nodup).2
  have hnodup : p.Nodup := List.Nodup.of_map _ h1
  show (p.map (fun e => e.weight)).sum ≤ (E.map (fun e => e.weight)).sum
  exact nodup_subset_sum_le p E hnodup (fun e he => h.mem_edges e he) hw

end PathLemmas

section Invariants

/-- Mid-relaxation invariant: relates the intermediate states `s'` of the
`for target in &adjacent_nodes` loop of `find_minimal_distance` (started at
state `s₁`, relaxing from the just-settled `node`) to the start state, and
carries the absolute facts the loop maintains.  `src` is the source vertex
`run` was seeded with. -/
structure Mid (src node : Vertex) (s₁ s' : Djikstra) : Prop where
  settled_eq : s'.settled_nodes = s₁.settled_nodes
  edges_eq : s'.edges = s₁.edges
  nodes_eq : s'.nodes = s₁.nodes
  frozen : ∀ v ∈ s₁.settled_nodes, mapFind v.id s'.distance = mapFind v.id s₁.distance
  dec : ∀ id d, mapFind id s₁.distance = some d →
    ∃ d', mapFind id s'.distance = some d' ∧ d' ≤ d
  qnodup : s'.unsettled_nodes.Nodup
  qdisj : ∀ u ∈ s'.unsettled_nodes, u ∉ s'.settled_nodes
  qpool : ∀ u ∈ s'.unsettled_nodes, u = src ∨ ∃ e ∈ s'.edges, u = e.destination
  entriesS : ∀ v ∈ s'.settled_nodes, (mapFind v.id s'.distance).isSome = true
  entriesQ : ∀ u ∈ s'.unsettled_nodes, (mapFind u.id s'.distance).isSome = true
  nonneg : ∀ id d, mapFind id s'.distance = some d → 0 ≤ d
  ltMax : ∀ id d, mapFind id s'.distance = some d → d < i32MAX
  mono : ∀ v ∈ s'.settled_nodes, ∀ u ∈ s'.unsettled_nodes, distOr s' v.id ≤ distOr s' u.id
  srcZero : mapFind src.id s'.distance = some 0
  predsSrc : mapFind src.id s'.predecessors = none
  predsDist : ∀ id v, mapFind id s'.predecessors = some v →
    (mapFind id s'.distance).isSome = true
  reach : ∀ id d, mapFind id s'.distance = some d →
    ∃ p, BWit s'.edges src.id s'.distance id p ∧ pathSum p = d
  disc : ∀ id, (mapFind id s'.distance).isSome = true →
    ∃ v, v.id = id ∧ (v ∈ s'.settled_nodes ∨ v ∈ s'.unsettled_nodes)

/-- Under the mid-loop invariant on a graph whose doubled total weight stays
below the sentinel, the `i32` candidate addition of `relaxOne` does not
overflow: both summands are realized, duplicate-free path weights, hence each
at most the total edge weight. -/
theorem Mid.no_overflow {src node : Vertex} {s₁ s' : Djikstra} (h : Mid src node s₁ s')
    (hw : ∀ e ∈ s₁.edges, 0 ≤ e.weight)
    (htot : 2 * edgeWeightSum s₁.edges ≤ i32MAX)
    (hnode : node ∈ s₁.settled_nodes)
    (t : Vertex)
    (hte : ∃ e ∈ s₁.edges, e.source.id = node.id ∧ e.destination = t) :
    wrap32 (s'.get_shortest_distance node + s'.get_distance node t) =
      s'.get_shortest_distance node + s'.get_distance node t := by
  have hnod' : node ∈ s'.settled_nodes := by rw [h.settled_eq]; exact hnode
  obtain ⟨dn, hdn⟩ := Option.isSome_iff_exists.mp (h.entriesS node hnod')
  have hgsd_node : s'.get_shortest_distance node = dn := by
    rw [Djikstra.gsd_eq]; exact distOr_eq_of_find hdn
  have hdn_nonneg : 0 ≤ dn := h.nonneg _ _ hdn
  have hw' : ∀ e ∈ s'.edges, 0 ≤ e.weight := by rw [h.edges_eq]; exact hw
  have hgd_nonneg : 0 ≤ s'.get_distance node t := s'.get_distance_nonneg node t hw'
  obtain ⟨pn, hpn, hpnsum⟩ := h.reach node.id dn hdn
  have hdn_le_tot : dn ≤ edgeWeightSum s'.edges :=
    hpnsum ▸ BWit.sum_le_total hw' hpn
  have hte' : ∃ e ∈ s'.edges, e.source.id = node.id ∧ e.destination.id = t.id := by
    obtain ⟨e, he, hsrc, hdest⟩ := hte
    exact ⟨e, by rw [h.edges_eq]; exact he, hsrc, by rw [hdest]⟩
  obtain ⟨eM, heM, hsM, hdM, hwM⟩ := s'.get_distance_matches node t hte'
  have hgd_le_tot : s'.get_distance node t ≤ edgeWeightSum s'.edges := by
    rw [hwM]
    show eM.weight ≤ (s'.edges.map (fun e => e.weight)).sum
    refine List.single_le_sum ?_ _ (List.mem_map_of_mem _ heM)
    intro x hx
    obtain ⟨e, he, rfl⟩ := List.mem_map.mp hx
    exact hw' e he
  have htot' : 2 * edgeWeightSum s'.edges ≤ i32MAX := by rw [h.edges_eq]; exact htot
  have hmax : i32MAX = 2147483647 := rfl
  apply wrap32_eq_self
  · rw [hgsd_node]
    have h0 : (0 : Int) ≤ dn + s'.get_distance node t := add_nonneg hdn_nonneg hgd_nonneg
    linarith
  · rw [hgsd_node]
    linarith

/-- One relaxation step preserves the mid-loop invariant. -/
theorem Mid.relaxPres {src node : Vertex} {s₁ s' : Djikstra} (h : Mid src node s₁ s')
    (hw : ∀ e ∈ s₁.edges, 0 ≤ e.weight)
    (htot : 2 * edgeWeightSum s₁.edges ≤ i32MAX)
    (hnode : node ∈ s₁.settled_nodes)
    (hm : ∀ v ∈ s₁.settled_nodes, distOr s₁ v.id ≤ distOr s₁ node.id)
    (t : Vertex) (htS : t ∉ s₁.settled_nodes)
    (hte : ∃ e ∈ s₁.edges, e.source.id = node.id ∧ e.destination = t) :
    Mid src node s₁ (Djikstra.relaxOne node s' t) := by
  have hnr := h.no_overflow hw htot hnode t hte
  unfold Djikstra.relaxOne
  rw [hnr]
  split
  case isFalse => exact h
  case isTrue hcond =>
  rw [Djikstra.gsd_eq s' t] at hcond
  have hnod' : node ∈ s'.settled_nodes := by rw [h.settled_eq]; exact hnode
  obtain ⟨dn, hdn⟩ := Option.isSome_iff_exists.mp (h.entriesS node hnod')
  have hdn1 : mapFind node.id s₁.distance = some dn := by rw [← h.frozen node hnode]; exact hdn
  have hgsd_node : s'.get_shortest_distance node = dn := by
    rw [Djikstra.gsd_eq]; exact distOr_eq_of_find hdn
  have hdn_nonneg : 0 ≤ dn := h.nonneg _ _ hdn
  have hw' : ∀ e ∈ s'.edges, 0 ≤ e.weight := by rw [h.edges_eq]; exact hw
  have hgd_nonneg : 0 ≤ s'.get_distance node t := s'.get_distance_nonneg node t hw'
  set cand := s'.get_shortest_distance node + s'.get_distance node t with hcand
  have hcand_nonneg : 0 ≤ cand := by
    rw [hcand, hgsd_node]; exact add_nonneg hdn_nonneg hgd_nonneg
  have hdn_le_cand : dn ≤ cand := by
    rw [hcand, hgsd_node]; exact le_add_of_nonneg_right hgd_nonneg
  -- every settled tentative distance is at most the candidate
  have hSle : ∀ v ∈ s₁.settled_nodes, distOr s' v.id ≤ cand := by
    intro v hv
    have h1 : distOr s' v.id = distOr s₁ v.id := distOr_congr _ (h.frozen v hv)
    have h2 : distOr s₁ v.id ≤ distOr s₁ node.id := hm v hv
    have h3 : distOr s₁ node.id = dn := distOr_eq_of_find hdn1
    rw [h1]
    exact le_trans h2 (h3 ▸ hdn_le_cand)
  -- hence no settled id can be the updated id
  have hSne : ∀ v ∈ s₁.settled_nodes, v.id ≠ t.id := by
    intro v hv heq
    have h4 : distOr s' t.id ≤ cand := heq ▸ hSle v hv
    exact absurd hcond (not_lt.mpr h4)
  have hts : t.id ≠ src.id := by
    intro heq
    have h0 : distOr s' t.id = 0 := by rw [heq]; exact distOr_eq_of_find h.srcZero
    rw [h0] at hcond
    exact absurd (lt_of_le_of_lt hcand_nonneg hcond) (lt_irrefl _)
  have hkeep : ∀ id, (mapFind id s'.distance).isSome = true →
      (mapFind id (mapInsert t.id cand s'.distance)).isSome = true := by
    intro id hid
    rw [mapFind_mapInsert_cases]
    split
    · rfl
    · exact hid
  have hdec' : ∀ id0 d0, mapFind id0 s'.distance = some d0 →
      ∃ d1, mapFind id0 (mapInsert t.id cand s'.distance) = some d1 ∧ d1 ≤ d0 := by
    intro id0 d0 hd0
    by_cases hid0 : t.id = id0
    · subst hid0
      refine ⟨cand, mapFind_mapInsert_self _ _ _, ?_⟩
      have hOr : distOr s' t.id = d0 := distOr_eq_of_find hd0
      exact le_of_lt (hOr ▸ hcond)
    · rw [mapFind_mapInsert_ne t.id id0 cand hid0]
      exact ⟨d0, hd0, le_refl d0⟩
  refine { settled_eq := h.settled_eq, edges_eq := h.edges_eq, nodes_eq := h.nodes_eq,
           frozen := ?_, dec := ?_, qnodup := ?_, qdisj := ?_, qpool := ?_,
           entriesS := ?_, entriesQ := ?_, nonneg := ?_, ltMax := ?_, mono := ?_,
           srcZero := ?_, predsSrc := ?_, predsDist := ?_, reach := ?_, disc := ?_ }
  · intro v hv
    show mapFind v.id (mapInsert t.id cand s'.distance) = _
    rw [mapFind_mapInsert_ne t.id v.id cand (fun heq => hSne v hv heq.symm)]
    exact h.frozen v hv
  · intro id d hd
    show ∃ d', mapFind id (mapInsert t.id cand s'.distance) = some d' ∧ d' ≤ d
    by_cases hid : t.id = id
    · subst hid
      obtain ⟨d', hd', hle⟩ := h.dec t.id d hd
      refine ⟨cand, mapFind_mapInsert_self _ _ _, ?_⟩
      have : distOr s' t.id = d' := distOr_eq_of_find hd'
      exact le_trans (le_of_lt (this ▸ hcond)) hle
    · rw [mapFind_mapInsert_ne t.id id cand hid]
      exact h.dec id d hd
  · exact listInsert_nodup t _ h.qnodup
  · intro u hu
    rcases (mem_listInsert t u _).mp hu with hu' | rfl
    · exact h.qdisj u hu'
    · show u ∉ s'.settled_nodes
      rw [h.settled_eq]
      exact htS
  · intro u hu
    rcases (mem_listInsert t u _).mp hu with hu' | rfl
    · exact h.qpool u hu'
    · obtain ⟨e, he, _, hdest⟩ := hte
      refine Or.inr ⟨e, ?_, hdest.symm⟩
      show e ∈ s'.edges
      rw [h.edges_eq]
      exact he
  · intro v hv
    have hv₁ : v ∈ s₁.settled_nodes := by rw [← h.settled_eq]; exact hv
    show (mapFind v.id (mapInsert t.id cand s'.distance)).isSome = true
    exact hkeep v.id (h.entriesS v hv)
  · intro u hu
    show (mapFind u.id (mapInsert t.id cand s'.distance)).isSome = true
    rcases (mem_listInsert t u _).mp hu with hu' | rfl
    · exact hkeep u.id (h.entriesQ u hu')
    · rw [mapFind_mapInsert_self]
      rfl
  · intro id d hd
    rw [mapFind_mapInsert_cases] at hd
    split at hd
    · injection hd with hd
      exact hd ▸ hcand_nonneg
    · exact h.nonneg id d hd
  · intro id d hd
    rw [mapFind_mapInsert_cases] at hd
    split at hd
    · injection hd with hd
      subst hd
      exact lt_of_lt_of_le hcond (distOr_le_MAX h.ltMax t.id)
    · exact h.ltMax id d hd
  · intro v hv u hu
    have hv₁ : v ∈ s₁.settled_nodes := by rw [← h.settled_eq]; exact hv
    have hvne : t.id ≠ v.id := fun heq => hSne v hv₁ heq.symm
    have hvEq : distOr { s' with
        distance := mapInsert t.id cand s'.distance,
        predecessors := mapInsert t.id node s'.predecessors,
        unsettled_nodes := listInsert t s'.unsettled_nodes } v.id = distOr s' v.id := by
      apply distOr_congr
      show mapFind v.id (mapInsert t.id cand s'.distance) = _
      rw [mapFind_mapInsert_ne t.id v.id cand hvne]
    rw [hvEq]
    by_cases hut : u.id = t.id
    · have : distOr { s' with
          distance := mapInsert t.id cand s'.distance,
          predecessors := mapInsert t.id node s'.predecessors,
          unsettled_nodes := listInsert t s'.unsettled_nodes } u.id = cand := by
        apply distOr_eq_of_find
        show mapFind u.id (mapInsert t.id cand s'.distance) = some cand
        rw [hut]
        exact mapFind_mapInsert_self _ _ _
      rw [this]
      exact hSle v hv₁
    · have : distOr { s' with
          distance := mapInsert t.id cand s'.distance,
          predecessors := mapInsert t.id node s'.predecessors,
          unsettled_nodes := listInsert t s'.unsettled_nodes } u.id = distOr s' u.id := by
        apply distOr_congr
        show mapFind u.id (mapInsert t.id cand s'.distance) = _
        rw [mapFind_mapInsert_ne t.id u.id cand (fun heq => hut heq.symm)]
      rw [this]
      rcases (mem_listInsert t u _).mp hu with hu' | rfl
      · exact h.mono v hv u hu'
      · exact absurd rfl hut
  · show mapFind src.id (mapInsert t.id cand s'.distance) = some 0
    rw [mapFind_mapInsert_ne t.id src.id cand hts]
    exact h.srcZero
  · show mapFind src.id (mapInsert t.id node s'.predecessors) = none
    rw [mapFind_mapInsert_ne t.id src.id node hts]
    exact h.predsSrc
  · intro id v hp
    show (mapFind id (mapInsert t.id cand s'.distance)).isSome = true
    by_cases hid : t.id = id
    · subst hid
      rw [mapFind_mapInsert_self]
      rfl
    · rw [mapFind_mapInsert_cases, if_neg hid]
      have hp' : mapFind id s'.predecessors = some v := by
        rw [← mapFind_mapInsert_ne t.id id node hid]
        exact hp
      exact h.predsDist id v hp'
  · intro id d hd
    show ∃ p, BWit s'.edges src.id (mapInsert t.id cand s'.distance) id p ∧ pathSum p = d
    rw [mapFind_mapInsert_cases] at hd
    split at hd
    next hid =>
      injection hd with hd
      obtain ⟨p, hp, hsum⟩ := h.reach node.id dn hdn
      have hSne_node : node.id ≠ t.id := hSne node hnode
      have hfresh : t.id ∉ pathIds src.id p := by
        intro hmem
        simp only [pathIds, List.mem_cons] at hmem
        rcases hmem with hmem | hmem
        · exact hts hmem
        · rcases BWit.visited_bound hw' hp t.id hmem with heq | ⟨dm, hdm, hle⟩
          · exact hSne_node heq.symm
          · have h1 : distOr s' t.id = dm := distOr_eq_of_find hdm
            have h2 : dm ≤ dn := hsum ▸ hle
            rw [h1] at hcond
            have h3 := hdn_le_cand
            linarith
      have hte' : ∃ e ∈ s'.edges, e.source.id = node.id ∧ e.destination.id = t.id := by
        obtain ⟨e, he, hsrc, hdest⟩ := hte
        exact ⟨e, by rw [h.edges_eq]; exact he, hsrc, by rw [hdest]⟩
      obtain ⟨eM, heM, hsM, hdM, hwM⟩ := s'.get_distance_matches node t hte'
      have hp' : BWit s'.edges src.id (mapInsert t.id cand s'.distance) node.id p :=
        BWit.mono hdec' hp
      have hnodefind : mapFind node.id (mapInsert t.id cand s'.distance) = some dn := by
        rw [mapFind_mapInsert_ne t.id node.id cand (fun heq => hSne_node heq.symm)]
        exact hdn
      have hbw := BWit.snoc eM hp' heM hsM ⟨dn, hnodefind, le_of_eq hsum.symm⟩
        (by rw [hdM]; exact hfresh)
      rw [hdM] at hbw
      refine ⟨p ++ [eM], ?_, ?_⟩
      · rw [← hid]
        exact hbw
      · rw [pathSum_append_single, hsum, ← hd, hcand, hgsd_node, hwM]
    next =>
      obtain ⟨p, hp, hsum⟩ := h.reach id d hd
      exact ⟨p, BWit.mono hdec' hp, hsum⟩
  · intro id hd
    by_cases hid : t.id = id
    · exact ⟨t, hid, Or.inr ((mem_listInsert t t _).mpr (Or.inr rfl))⟩
    · rw [show (mapFind id (mapInsert t.id cand s'.distance)).isSome =
          (mapFind id s'.distance).isSome by rw [mapFind_mapInsert_ne t.id id cand hid]] at hd
      obtain ⟨v, hvid, hv⟩ := h.disc id hd
      refine ⟨v, hvid, ?_⟩
      rcases hv with hv | hv
      · exact Or.inl hv
      · exact Or.inr ((mem_listInsert t v _).mpr (Or.inl hv))

end Invariants

section FoldLemmas

/-- The whole relaxation loop preserves the mid-loop invariant. -/
theorem Mid.foldPres {src node : Vertex} {s₁ : Djikstra}
    (hw : ∀ e ∈ s₁.edges, 0 ≤ e.weight)
    (htot : 2 * edgeWeightSum s₁.edges ≤ i32MAX)
    (hnode : node ∈ s₁.settled_nodes)
    (hm : ∀ v ∈ s₁.settled_nodes, distOr s₁ v.id ≤ distOr s₁ node.id) :
    ∀ (l : List Vertex) (s' : Djikstra), Mid src node s₁ s' →
    (∀ t ∈ l, t ∉ s₁.settled_nodes ∧
      ∃ e ∈ s₁.edges, e.source.id = node.id ∧ e.destination = t) →
    Mid src node s₁ (l.foldl (Djikstra.relaxOne node) s')
  | [], _, h, _ => h
  | t :: l, s', h, hl => by
    rw [List.foldl_cons]
    exact Mid.foldPres hw htot hnode hm l _
      (h.relaxPres hw htot hnode hm t (hl t (List.mem_cons_self t l)).1
        (hl t (List.mem_cons_self t l)).2)
      (fun t' ht' => hl t' (List.mem_cons_of_mem t ht'))

/-- A single relaxation can only decrease an existing tentative distance. -/
theorem relaxOne_dec (node t : Vertex) (s' : Djikstra) (id : String) (d : Int)
    (hd : mapFind id s'.distance = some d) :
    ∃ d', mapFind id (Djikstra.relaxOne node s' t).distance = some d' ∧ d' ≤ d := by
  unfold Djikstra.relaxOne
  split
  next hcond =>
    show ∃ d', mapFind id (mapInsert t.id _ s'.distance) = some d' ∧ d' ≤ d
    by_cases hid : t.id = id
    · subst hid
      refine ⟨_, mapFind_mapInsert_self _ _ _, ?_⟩
      rw [Djikstra.gsd_eq s' t] at hcond
      have hdist : distOr s' t.id = d := distOr_eq_of_find hd
      exact le_of_lt (hdist ▸ hcond)
    · rw [mapFind_mapInsert_ne t.id id _ hid]
      exact ⟨d, hd, le_refl d⟩
  next => exact ⟨d, hd, le_refl d⟩

/-- The relaxation loop can only decrease existing tentative distances. -/
theorem fold_relax_dec (node : Vertex) :
    ∀ (l : List Vertex) (s' : Djikstra) (id : String) (d : Int),
    mapFind id s'.distance = some d →
    ∃ d', mapFind id (l.foldl (Djikstra.relaxOne node) s').distance = some d' ∧ d' ≤ d
  | [], _, _, d, hd => ⟨d, hd, le_refl d⟩
  | t :: l, s', id, d, hd => by
    rw [List.foldl_cons]
    obtain ⟨d1, hd1, hle1⟩ := relaxOne_dec node t s' id d hd
    obtain ⟨d2, hd2, hle2⟩ := fold_relax_dec node l _ id d1 hd1
    exact ⟨d2, hd2, le_trans hle2 hle1⟩

theorem distOr_lt_MAX_isSome {s : Djikstra} {id : String} (h : distOr s id < i32MAX) :
    ∃ d, mapFind id s.distance = some d ∧ d = distOr s id := by
  rcases hf : mapFind id s.distance with _ | d
  · rw [distOr_eq_of_none hf] at h
    exact absurd h (lt_irrefl _)
  · exact ⟨d, rfl, (distOr_eq_of_find hf).symm⟩

/-- After the relaxation loop, every relaxed target's tentative distance is at
most the tentative distance of `node` plus the looked-up edge weight, whenever
that candidate is below the `i32::MAX` sentinel. -/
theorem relax_fold_bound {src node : Vertex} {s₁ : Djikstra}
    (hw : ∀ e ∈ s₁.edges, 0 ≤ e.weight)
    (htot : 2 * edgeWeightSum s₁.edges ≤ i32MAX)
    (hnode : node ∈ s₁.settled_nodes)
    (hm : ∀ v ∈ s₁.settled_nodes, distOr s₁ v.id ≤ distOr s₁ node.id) :
    ∀ (l : List Vertex) (s' : Djikstra), Mid src node s₁ s' →
    (∀ t' ∈ l, t' ∉ s₁.settled_nodes ∧
      ∃ e ∈ s₁.edges, e.source.id = node.id ∧ e.destination = t') →
    ∀ t ∈ l, distOr s₁ node.id + s₁.get_distance node t < i32MAX →
    ∃ dt, mapFind t.id (l.foldl (Djikstra.relaxOne node) s').distance = some dt ∧
      dt ≤ distOr s₁ node.id + s₁.get_distance node t
  | [], _, _, _, t, ht, _ => absurd ht (List.not_mem_nil t)
  | t₀ :: l, s', h, hl, t, ht, hbound => by
    rw [List.foldl_cons]
    have hnod' : node ∈ s'.settled_nodes := by rw [h.settled_eq]; exact hnode
    obtain ⟨dn, hdn⟩ := Option.isSome_iff_exists.mp (h.entriesS node hnod')
    have hcand_eq : s'.get_shortest_distance node + s'.get_distance node t =
        distOr s₁ node.id + s₁.get_distance node t := by
      rw [Djikstra.gsd_eq, distOr_congr node.id (h.frozen node hnode),
        Djikstra.get_distance_congr s' s₁ h.edges_eq]
    rcases List.mem_cons.mp ht with rfl | htl
    · -- the head is the target: relax it, then only decreases
      have hnr := h.no_overflow hw htot hnode t (hl t (List.mem_cons_self t l)).2
      unfold Djikstra.relaxOne
      rw [hnr]
      split
      next hcond =>
        have hfind : mapFind t.id ({ s' with
            distance := mapInsert t.id
              (s'.get_shortest_distance node + s'.get_distance node t) s'.distance,
            predecessors := mapInsert t.id node s'.predecessors,
            unsettled_nodes := listInsert t s'.unsettled_nodes } : Djikstra).distance =
            some (distOr s₁ node.id + s₁.get_distance node t) := by
          show mapFind t.id (mapInsert t.id
            (s'.get_shortest_distance node + s'.get_distance node t) s'.distance) = _
          rw [← hcand_eq]
          exact mapFind_mapInsert_self _ _ _
        obtain ⟨d2, hd2, hle2⟩ := fold_relax_dec node l _ t.id _ hfind
        exact ⟨d2, hd2, hle2⟩
      next hcond =>
        rw [Djikstra.gsd_eq s' t, not_lt] at hcond
        rw [hcand_eq] at hcond
        have hlt : distOr s' t.id < i32MAX := lt_of_le_of_lt hcond hbound
        obtain ⟨d, hd, hdeq⟩ := distOr_lt_MAX_isSome hlt
        obtain ⟨d2, hd2, hle2⟩ := fold_relax_dec node l s' t.id d hd
        exact ⟨d2, hd2, le_trans hle2 (hdeq ▸ hcond)⟩
    · -- the head is another target: step the invariant and recurse
      exact relax_fold_bound hw htot hnode hm l _
        (h.relaxPres hw htot hnode hm t₀ (hl t₀ (List.mem_cons_self t₀ l)).1
          (hl t₀ (List.mem_cons_self t₀ l)).2)
        (fun t' ht' => hl t' (List.mem_cons_of_mem t₀ ht')) t htl hbound

end FoldLemmas

section StateInvariant

/-- Invariant of the engine state at the head of every iteration of the main
loop of `run` with source `src`, established by `runInit` and preserved by
`runStep` on graphs with non-negative weights. -/
structure InvB (src : Vertex) (s : Djikstra) : Prop where
  snodup : s.settled_nodes.Nodup
  qnodup : s.unsettled_nodes.Nodup
  qdisj : ∀ u ∈ s.unsettled_nodes, u ∉ s.settled_nodes
  spool : ∀ v ∈ s.settled_nodes, v = src ∨ ∃ e ∈ s.edges, v = e.destination
  qpool : ∀ u ∈ s.unsettled_nodes, u = src ∨ ∃ e ∈ s.edges, u = e.destination
  entriesS : ∀ v ∈ s.settled_nodes, (mapFind v.id s.distance).isSome = true
  entriesQ : ∀ u ∈ s.unsettled_nodes, (mapFind u.id s.distance).isSome = true
  nonneg : ∀ id d, mapFind id s.distance = some d → 0 ≤ d
  ltMax : ∀ id d, mapFind id s.distance = some d → d < i32MAX
  mono : ∀ v ∈ s.settled_nodes, ∀ u ∈ s.unsettled_nodes, distOr s v.id ≤ distOr s u.id
  srcZero : mapFind src.id s.distance = some 0
  predsSrc : mapFind src.id s.predecessors = none
  predsDist : ∀ id v, mapFind id s.predecessors = some v →
    (mapFind id s.distance).isSome = true
  reach : ∀ id d, mapFind id s.distance = some d →
    ∃ p, BWit s.edges src.id s.distance id p ∧ pathSum p = d
  disc : ∀ id, (mapFind id s.distance).isSome = true →
    ∃ v, v.id = id ∧ (v ∈ s.settled_nodes ∨ v ∈ s.unsettled_nodes)

/-- The state right after `node` is moved from the unsettled to the settled
set in `runStep`, before its neighbours are relaxed. -/
def settleState (s : Djikstra) (node : Vertex) : Djikstra :=
  { s with settled_nodes := listInsert node s.settled_nodes
           unsettled_nodes := listRemove node s.unsettled_nodes }

theorem Djikstra.get_minimum_eq_none (s : Djikstra) (l : List Vertex)
    (h : s.get_minimum l = none) : l = [] := by
  cases l with
  | nil => rfl
  | cons v t =>
    have hs := s.get_minimum_isSome (v :: t) (by simp)
    rw [h] at hs
    exact absurd hs (by simp)

/-- Case analysis of one `runStep`: either the unsettled set is empty and the
state is unchanged, or a minimum vertex `u` is settled and the resulting state
satisfies the mid-loop invariant relative to the settle point, with all of
`u`'s outgoing edges relaxed. -/
theorem runStep_cases {src : Vertex} {s : Djikstra} (hb : InvB src s)
    (hw : ∀ e ∈ s.edges, 0 ≤ e.weight)
    (htot : 2 * edgeWeightSum s.edges ≤ i32MAX) :
    (s.unsettled_nodes = [] ∧ s.runStep = s) ∨
    ∃ u : Vertex, u ∈ s.unsettled_nodes ∧
      (∀ q ∈ s.unsettled_nodes, distOr s u.id ≤ distOr s q.id) ∧
      Mid src u (settleState s u) s.runStep ∧
      (∀ e ∈ s.edges, e.source.id = u.id →
        distOr s u.id + s.get_distance u e.destination < i32MAX →
        ∃ dt, mapFind e.destination.id s.runStep.distance = some dt ∧
          dt ≤ distOr s u.id + s.get_distance u e.destination) := by
  rcases hmin : s.get_minimum s.unsettled_nodes with _ | u
  · left
    refine ⟨s.get_minimum_eq_none _ hmin, ?_⟩
    unfold Djikstra.runStep
    rw [hmin]
  · right
    have hstep : s.runStep = Djikstra.find_minimal_distance (settleState s u) u := by
      unfold Djikstra.runStep
      rw [hmin]
      rfl
    have huQ : u ∈ s.unsettled_nodes := s.get_minimum_mem _ u hmin
    have huS : u ∉ s.settled_nodes := hb.qdisj u huQ
    have hle : ∀ q ∈ s.unsettled_nodes, distOr s u.id ≤ distOr s q.id := by
      intro q hq
      have h0 := s.get_minimum_le _ u hmin q hq
      rwa [Djikstra.gsd_eq, Djikstra.gsd_eq] at h0
    have hS₁ : (settleState s u).settled_nodes = listInsert u s.settled_nodes := rfl
    have hbase : Mid src u (settleState s u) (settleState s u) := by
      refine { settled_eq := rfl, edges_eq := rfl, nodes_eq := rfl,
               frozen := fun v _ => rfl, dec := fun id d hd => ⟨d, hd, le_refl d⟩,
               qnodup := ?_, qdisj := ?_, qpool := ?_, entriesS := ?_, entriesQ := ?_,
               nonneg := hb.nonneg, ltMax := hb.ltMax, mono := ?_, srcZero := hb.srcZero,
               predsSrc := hb.predsSrc, predsDist := hb.predsDist, reach := hb.reach,
               disc := ?_ }
      · show (listRemove u s.unsettled_nodes).Nodup
        exact listRemove_nodup u _ hb.qnodup
      · intro q hq
        have hq' := (mem_listRemove u q _).mp hq
        show q ∉ listInsert u s.settled_nodes
        intro hmem
        rcases (mem_listInsert u q _).mp hmem with hmem | rfl
        · exact hb.qdisj q hq'.1 hmem
        · exact hq'.2 rfl
      · intro q hq
        exact hb.qpool q ((mem_listRemove u q _).mp hq).1
      · intro v hv
        rcases (mem_listInsert u v _).mp hv with hv | rfl
        · exact hb.entriesS v hv
        · exact hb.entriesQ v huQ
      · intro q hq
        exact hb.entriesQ q ((mem_listRemove u q _).mp hq).1
      · intro v hv q hq
        have hq' := ((mem_listRemove u q _).mp hq).1
        show distOr (settleState s u) v.id ≤ distOr (settleState s u) q.id
        have e1 : distOr (settleState s u) v.id = distOr s v.id := rfl
        have e2 : distOr (settleState s u) q.id = distOr s q.id := rfl
        rw [e1, e2]
        rcases (mem_listInsert u v _).mp hv with hv | rfl
        · exact hb.mono v hv q hq'
        · exact hle q hq'
      · intro id hd
        obtain ⟨v, hvid, hv⟩ := hb.disc id hd
        refine ⟨v, hvid, ?_⟩
        rcases hv with hv | hv
        · exact Or.inl ((mem_listInsert u v _).mpr (Or.inl hv))
        · by_cases hvu : v = u
          · exact Or.inl ((mem_listInsert u v _).mpr (Or.inr hvu))
          · exact Or.inr ((mem_listRemove u v _).mpr ⟨hv, hvu⟩)
    have hw₁ : ∀ e ∈ (settleState s u).edges, 0 ≤ e.weight := hw
    have htot₁ : 2 * edgeWeightSum (settleState s u).edges ≤ i32MAX := htot
    have hnode₁ : u ∈ (settleState s u).settled_nodes := (mem_listInsert u u _).mpr (Or.inr rfl)
    have hm₁ : ∀ v ∈ (settleState s u).settled_nodes, distOr (settleState s u) v.id ≤ distOr (settleState s u) u.id := by
      intro v hv
      show distOr s v.id ≤ distOr s u.id
      rcases (mem_listInsert u v _).mp hv with hv | rfl
      · exact hb.mono v hv u huQ
      · exact le_refl _
    have hneigh : ∀ t ∈ (settleState s u).get_neighbors u, t ∉ (settleState s u).settled_nodes ∧
        ∃ e ∈ (settleState s u).edges, e.source.id = u.id ∧ e.destination = t := by
      intro t ht
      obtain ⟨e, he, hsrc, hdest, htS⟩ := ((settleState s u).mem_get_neighbors u t).mp ht
      exact ⟨htS, e, he, hsrc, hdest⟩
    have hmid : Mid src u (settleState s u) s.runStep := by
      rw [hstep]
      unfold Djikstra.find_minimal_distance
      exact Mid.foldPres hw₁ htot₁ hnode₁ hm₁ _ (settleState s u) hbase hneigh
    refine ⟨u, huQ, hle, hmid, ?_⟩
    intro e he hsrc hlt
    by_cases hdest : e.destination ∈ (settleState s u).settled_nodes
    · obtain ⟨dd, hdd⟩ := Option.isSome_iff_exists.mp
        (hmid.entriesS e.destination (by rw [hmid.settled_eq]; exact hdest))
      refine ⟨dd, hdd, ?_⟩
      have h1 : mapFind e.destination.id s.runStep.distance =
          mapFind e.destination.id (settleState s u).distance := hmid.frozen e.destination hdest
      have h2 : distOr (settleState s u) e.destination.id ≤ distOr (settleState s u) u.id := hm₁ e.destination hdest
      have h3 : distOr (settleState s u) e.destination.id = dd := by
        apply distOr_eq_of_find
        show mapFind e.destination.id (settleState s u).distance = some dd
        rw [← h1]
        exact hdd
      have h4 : distOr (settleState s u) u.id = distOr s u.id := rfl
      have h5 : 0 ≤ s.get_distance u e.destination := s.get_distance_nonneg _ _ hw
      calc dd = distOr (settleState s u) e.destination.id := h3.symm
        _ ≤ distOr (settleState s u) u.id := h2
        _ = distOr s u.id := h4
        _ ≤ distOr s u.id + s.get_distance u e.destination := le_add_of_nonneg_right h5
    · have hmem : e.destination ∈ (settleState s u).get_neighbors u :=
        ((settleState s u).mem_get_neighbors u e.destination).mpr ⟨e, he, hsrc, rfl, hdest⟩
      have hlt' : distOr (settleState s u) u.id + (settleState s u).get_distance u e.destination < i32MAX := hlt
      obtain ⟨dt, hdt, hdtle⟩ := relax_fold_bound hw₁ htot₁ hnode₁ hm₁
        ((settleState s u).get_neighbors u) (settleState s u) hbase hneigh e.destination hmem hlt'
      refine ⟨dt, ?_, hdtle⟩
      rw [hstep]
      unfold Djikstra.find_minimal_distance
      exact hdt

/-- The loop body `runStep` preserves the state invariant. -/
theorem InvB.stepB {src : Vertex} {s : Djikstra} (hb : InvB src s)
    (hw : ∀ e ∈ s.edges, 0 ≤ e.weight)
    (htot : 2 * edgeWeightSum s.edges ≤ i32MAX) : InvB src s.runStep := by
  rcases runStep_cases hb hw htot with ⟨_, heq⟩ | ⟨u, huQ, _, hmid, _⟩
  · rw [heq]
    exact hb
  · refine { snodup := ?_, qnodup := hmid.qnodup, qdisj := hmid.qdisj,
             spool := ?_, qpool := hmid.qpool, entriesS := hmid.entriesS,
             entriesQ := hmid.entriesQ, nonneg := hmid.nonneg, ltMax := hmid.ltMax,
             mono := hmid.mono, srcZero := hmid.srcZero, predsSrc := hmid.predsSrc,
             predsDist := hmid.predsDist, reach := hmid.reach, disc := hmid.disc }
    · rw [hmid.settled_eq]
      show (listInsert u s.settled_nodes).Nodup
      exact listInsert_nodup u _ hb.snodup
    · intro v hv
      rw [hmid.settled_eq] at hv
      have hv' : v ∈ listInsert u s.settled_nodes := hv
      rw [hmid.edges_eq]
      show v = src ∨ ∃ e ∈ s.edges, v = e.destination
      rcases (mem_listInsert u v _).mp hv' with hv'' | rfl
      · exact hb.spool v hv''
      · exact hb.qpool v huQ

/-- The reset `runInit` establishes the state invariant. -/
theorem InvB.initB (s : Djikstra) (src : Vertex) : InvB src (s.runInit src) := by
  have hfind : ∀ (id : String) (d : Int),
      mapFind id (mapInsert src.id 0 ([] : List (String × Int))) = some d →
      src.id = id ∧ d = 0 := by
    intro id d h
    rw [mapFind_mapInsert_cases] at h
    split at h
    next heq =>
      injection h with h
      exact ⟨heq, h.symm⟩
    next => exact absurd h (by simp [mapFind])
  refine { snodup := List.nodup_nil, qnodup := ?_, qdisj := ?_, spool := ?_, qpool := ?_,
           entriesS := ?_, entriesQ := ?_, nonneg := ?_, ltMax := ?_, mono := ?_,
           srcZero := ?_, predsSrc := rfl, predsDist := ?_, reach := ?_, disc := ?_ }
  · show (listInsert src []).Nodup
    rw [listInsert]
    simp
  · intro q hq
    exact List.not_mem_nil q
  · intro v hv
    exact absurd hv (List.not_mem_nil v)
  · intro q hq
    left
    have hq' : q ∈ listInsert src [] := hq
    rw [listInsert] at hq'
    simpa using hq'
  · intro v hv
    exact absurd hv (List.not_mem_nil v)
  · intro q hq
    have hq' : q ∈ listInsert src [] := hq
    rw [listInsert] at hq'
    simp at hq'
    rw [hq']
    show (mapFind src.id (mapInsert src.id 0 [])).isSome = true
    rw [mapFind_mapInsert_self]
    rfl
  · intro id d hd
    obtain ⟨_, rfl⟩ := hfind id d hd
    exact le_refl 0
  · intro id d hd
    obtain ⟨_, rfl⟩ := hfind id d hd
    rw [i32MAX]
    norm_num
  · intro v hv
    exact absurd hv (List.not_mem_nil v)
  · show mapFind src.id (mapInsert src.id 0 []) = some 0
    exact mapFind_mapInsert_self _ _ _
  · intro id v hp
    exact absurd hp (by simp [mapFind])
  · intro id d hd
    obtain ⟨hid, rfl⟩ := hfind id d hd
    refine ⟨[], ?_, rfl⟩
    rw [← hid]
    exact BWit.nil
  · intro id hd
    obtain ⟨d, hd'⟩ := Option.isSome_iff_exists.mp hd
    obtain ⟨hid, _⟩ := hfind id d hd'
    refine ⟨src, hid, Or.inr ?_⟩
    show src ∈ listInsert src []
    rw [listInsert]
    simp

/-- The state invariant holds at every iterate of the main loop. -/
theorem InvB.loopB {src : Vertex} : ∀ (n : Nat) (s : Djikstra), InvB src s →
    (∀ e ∈ s.edges, 0 ≤ e.weight) →
    2 * edgeWeightSum s.edges ≤ i32MAX → InvB src (Djikstra.runLoop n s)
  | 0, _, hb, _, _ => hb
  | n + 1, s, hb, hw, htot => by
    rw [Djikstra.runLoop]
    split
    · exact hb
    · exact InvB.loopB n _ (hb.stepB hw htot) (by rw [Djikstra.runStep_edges]; exact hw)
        (by rw [Djikstra.runStep_edges]; exact htot)

/-- Distances of settled vertices are frozen along the rest of the loop. -/
theorem runLoop_frozen {src : Vertex} : ∀ (n : Nat) (s : Djikstra), InvB src s →
    (∀ e ∈ s.edges, 0 ≤ e.weight) →
    2 * edgeWeightSum s.edges ≤ i32MAX → ∀ v ∈ s.settled_nodes,
    mapFind v.id (Djikstra.runLoop n s).distance = mapFind v.id s.distance
  | 0, _, _, _, _, _, _ => rfl
  | n + 1, s, hb, hw, htot, v, hv => by
    rw [Djikstra.runLoop]
    split
    · rfl
    · have hstep_frozen : mapFind v.id s.runStep.distance = mapFind v.id s.distance := by
        rcases runStep_cases hb hw htot with ⟨_, heq⟩ | ⟨u, _, _, hmid, _⟩
        · rw [heq]
        · exact hmid.frozen v ((mem_listInsert u v _).mpr (Or.inl hv))
      have hmem : v ∈ s.runStep.settled_nodes := by
        rcases runStep_cases hb hw htot with ⟨_, heq⟩ | ⟨u, _, _, hmid, _⟩
        · rw [heq]
          exact hv
        · rw [hmid.settled_eq]
          exact (mem_listInsert u v _).mpr (Or.inl hv)
      rw [runLoop_frozen n s.runStep (hb.stepB hw htot)
        (by rw [Djikstra.runStep_edges]; exact hw)
        (by rw [Djikstra.runStep_edges]; exact htot) v hmem, hstep_frozen]

end StateInvariant

section Adequacy

/-- Structural invariant, preserved by `runStep` on *every* graph (no weight
hypotheses): duplicate-freedom, settled/unsettled disjointness, and membership
of all tracked vertices in the pool made of the source and the edge
destinations.  It bounds the number of loop iterations. -/
structure InvStr (src : Vertex) (s : Djikstra) : Prop where
  snodup : s.settled_nodes.Nodup
  qnodup : s.unsettled_nodes.Nodup
  qdisj : ∀ u ∈ s.unsettled_nodes, u ∉ s.settled_nodes
  spool : ∀ v ∈ s.settled_nodes, v = src ∨ ∃ e ∈ s.edges, v = e.destination
  qpool : ∀ u ∈ s.unsettled_nodes, u = src ∨ ∃ e ∈ s.edges, u = e.destination

theorem InvStr.relaxStr {src node : Vertex} {s' : Djikstra} (h : InvStr src s')
    (t : Vertex) (htS : t ∉ s'.settled_nodes)
    (hte : ∃ e ∈ s'.edges, e.destination = t) :
    InvStr src (Djikstra.relaxOne node s' t) := by
  unfold Djikstra.relaxOne
  split
  next =>
    refine { snodup := h.snodup, qnodup := listInsert_nodup t _ h.qnodup,
             qdisj := ?_, spool := h.spool, qpool := ?_ }
    · intro u hu
      rcases (mem_listInsert t u _).mp hu with hu | rfl
      · exact h.qdisj u hu
      · exact htS
    · intro u hu
      rcases (mem_listInsert t u _).mp hu with hu | rfl
      · exact h.qpool u hu
      · obtain ⟨e, he, hdest⟩ := hte
        exact Or.inr ⟨e, he, hdest.symm⟩
  next => exact h

theorem InvStr.foldStr {src node : Vertex} :
    ∀ (l : List Vertex) (s' : Djikstra), InvStr src s' →
    (∀ t ∈ l, t ∉ s'.settled_nodes ∧ ∃ e ∈ s'.edges, e.destination = t) →
    InvStr src (l.foldl (Djikstra.relaxOne node) s')
  | [], _, h, _ => h
  | t :: l, s', h, hl => by
    rw [List.foldl_cons]
    apply InvStr.foldStr l _
      (h.relaxStr t (hl t (List.mem_cons_self t l)).1 (hl t (List.mem_cons_self t l)).2)
    intro t' ht'
    constructor
    · rw [Djikstra.relaxOne_settled]
      exact (hl t' (List.mem_cons_of_mem t ht')).1
    · rw [Djikstra.relaxOne_edges]
      exact (hl t' (List.mem_cons_of_mem t ht')).2

theorem InvStr.stepStr {src : Vertex} {s : Djikstra} (h : InvStr src s) :
    InvStr src s.runStep := by
  unfold Djikstra.runStep
  split
  next u hmin =>
    show InvStr src (Djikstra.find_minimal_distance (settleState s u) u)
    have huQ := s.get_minimum_mem _ u hmin
    have huS := h.qdisj u huQ
    unfold Djikstra.find_minimal_distance
    apply InvStr.foldStr
    · refine { snodup := ?_, qnodup := ?_, qdisj := ?_, spool := ?_, qpool := ?_ }
      · show (listInsert u s.settled_nodes).Nodup
        exact listInsert_nodup u _ h.snodup
      · show (listRemove u s.unsettled_nodes).Nodup
        exact listRemove_nodup u _ h.qnodup
      · intro q hq
        have hq' := (mem_listRemove u q _).mp hq
        show q ∉ listInsert u s.settled_nodes
        intro hmem
        rcases (mem_listInsert u q _).mp hmem with hmem | rfl
        · exact h.qdisj q hq'.1 hmem
        · exact hq'.2 rfl
      · intro v hv
        rcases (mem_listInsert u v _).mp hv with hv | rfl
        · exact h.spool v hv
        · exact h.qpool v huQ
      · intro q hq
        exact h.qpool q ((mem_listRemove u q _).mp hq).1
    · intro t ht
      obtain ⟨e, he, _, hdest, htS⟩ := ((settleState s u).mem_get_neighbors u t).mp ht
      exact ⟨htS, e, he, hdest⟩
  next => exact h

theorem nodup_length_le_dedup {l m : List Vertex} (hn : l.Nodup)
    (hsub : ∀ x ∈ l, x ∈ m) : l.length ≤ m.dedup.length := by
  classical
  have h1 : l.toFinset.card = l.length := List.toFinset_card_of_nodup hn
  have h2 : l.toFinset ⊆ m.toFinset := by
    intro x hx
    rw [List.mem_toFinset] at hx ⊢
    exact hsub x hx
  have h3 : m.toFinset.card = m.dedup.length := List.card_toFinset m
  calc l.length = l.toFinset.card := h1.symm
    _ ≤ m.toFinset.card := Finset.card_le_card h2
    _ = m.dedup.length := h3

theorem listInsert_nil (v : Vertex) : listInsert v [] = [v] := by
  unfold listInsert
  rw [if_neg (List.not_mem_nil v)]
  rfl

/-- The main loop reaches its exit condition once the fuel covers the number
of vertices the settled set can still grow by. -/
theorem runLoop_reaches_nil (src : Vertex) :
    ∀ (fuel : Nat) (s : Djikstra), InvStr src s →
    (src :: s.edges.map (fun e => e.destination)).dedup.length ≤
      s.settled_nodes.length + fuel →
    (Djikstra.runLoop fuel s).unsettled_nodes = []
  | 0, s, hstr, hcount => by
    rw [Djikstra.runLoop]
    cases hQ : s.unsettled_nodes with
    | nil => rfl
    | cons q rest =>
      exfalso
      have hq : q ∈ s.unsettled_nodes := by rw [hQ]; exact List.mem_cons_self q rest
      have hqS : q ∉ s.settled_nodes := hstr.qdisj q hq
      have hnodup : (q :: s.settled_nodes).Nodup := by
        rw [List.nodup_cons]
        exact ⟨hqS, hstr.snodup⟩
      have hsub : ∀ x ∈ q :: s.settled_nodes,
          x ∈ src :: s.edges.map (fun e => e.destination) := by
        intro x hx
        rcases List.mem_cons.mp hx with rfl | hx
        · rcases hstr.qpool x hq with rfl | ⟨e, he, rfl⟩
          · exact List.mem_cons_self _ _
          · exact List.mem_cons_of_mem _ (List.mem_map_of_mem _ he)
        · rcases hstr.spool x hx with rfl | ⟨e, he, rfl⟩
          · exact List.mem_cons_self _ _
          · exact List.mem_cons_of_mem _ (List.mem_map_of_mem _ he)
      have hle := nodup_length_le_dedup hnodup hsub
      rw [List.length_cons] at hle
      omega
  | fuel + 1, s, hstr, hcount => by
    rw [Djikstra.runLoop]
    split
    next hempty => exact List.isEmpty_iff.mp hempty
    next hne =>
      have hQne : s.unsettled_nodes ≠ [] := by
        intro hnil
        exact hne (by rw [hnil]; rfl)
      obtain ⟨u, hmin⟩ := Option.isSome_iff_exists.mp (s.get_minimum_isSome _ hQne)
      have hlen : s.runStep.settled_nodes.length = s.settled_nodes.length + 1 := by
        unfold Djikstra.runStep
        rw [hmin, Djikstra.fmd_settled]
        show (listInsert u s.settled_nodes).length = _
        exact listInsert_length u _ (hstr.qdisj u (s.get_minimum_mem _ u hmin))
      apply runLoop_reaches_nil src fuel s.runStep hstr.stepStr
      rw [Djikstra.runStep_edges, hlen]
      omega

/-- The fuel `edges.length + 1` used by `run` is always sufficient: at the end
of `run` the unsettled set is empty, i.e. the source `while` loop has exited. -/
theorem Djikstra.run_unsettled_nil (s : Djikstra) (src : Vertex) :
    (s.run src).unsettled_nodes = [] := by
  unfold Djikstra.run
  apply runLoop_reaches_nil src
  · refine { snodup := List.nodup_nil, qnodup := ?_, qdisj := ?_, spool := ?_, qpool := ?_ }
    · show (listInsert src []).Nodup
      rw [listInsert_nil]
      exact List.nodup_singleton src
    · intro u _
      exact List.not_mem_nil u
    · intro v hv
      exact absurd hv (List.not_mem_nil v)
    · intro q hq
      left
      have hq' : q ∈ listInsert src [] := hq
      rw [listInsert_nil] at hq'
      simpa using hq'
  · show (src :: s.edges.map (fun e => e.destination)).dedup.length ≤
      ([] : List Vertex).length + (s.edges.length + 1)
    have h1 := List.Sublist.length_le (List.dedup_sublist
      (src :: s.edges.map (fun e => e.destination)))
    simp only [List.length_cons, List.length_map] at h1
    simp only [List.length_nil]
    omega

/-- Once the unsettled set is empty, the loop is stationary. -/
theorem Djikstra.runLoop_stall : ∀ (n : Nat) (s : Djikstra),
    s.unsettled_nodes = [] → Djikstra.runLoop n s = s
  | 0, _, _ => rfl
  | n + 1, s, h => by
    rw [Djikstra.runLoop, if_pos (by rw [h]; rfl)]

theorem Djikstra.runLoop_add : ∀ (m n : Nat) (s : Djikstra),
    Djikstra.runLoop (m + n) s = Djikstra.runLoop n (Djikstra.runLoop m s)
  | 0, n, s => by rw [Nat.zero_add]; rfl
  | m + 1, n, s => by
    rw [Nat.succ_add, Djikstra.runLoop, Djikstra.runLoop]
    split
    next h => rw [Djikstra.runLoop_stall n s (List.isEmpty_iff.mp h)]
    next => exact Djikstra.runLoop_add m n s.runStep

end Adequacy

section ClaimC8

/-- First incarnation of the duplicated id `S`: the source vertex. -/
def vS1 : Vertex := ⟨"S", "1"⟩

/-- Second incarnation of the id `S`, under a different name, so it is a
distinct `Vertex` value sharing the distance-map key `"S"`. -/
def vS2 : Vertex := ⟨"S", "2"⟩

/-- Intermediate vertex `a` of the overflow graph. -/
def vMa : Vertex := ⟨"a", "a"⟩

/-- Intermediate vertex `b` of the overflow graph. -/
def vMb : Vertex := ⟨"b", "b"⟩

/-- Overflow graph: non-negative `i32` weights whose running sum along
`S → a → b` overflows `i32` (2000000000 + 2000000000), plus a zero-weight
edge from `b` back into the id `S` via the same-id different-name vertex
`⟨S, 2⟩`. -/
def overflowGraph : Graph :=
  ⟨[vS1, vMa, vMb],
   [⟨"Sa", vS1, vMa, 2000000000⟩, ⟨"ab", vMa, vMb, 2000000000⟩, ⟨"bS", vMb, vS2, 0⟩]⟩

/-- The engine state after `run(⟨S, 1⟩)` on the overflow graph. -/
def runOv : Djikstra := (Djikstra.new overflowGraph).run vS1

/-- C8 counterexample: all weights of the overflow graph are non-negative,
and the source id `S` is settled with distance entry 0 after the first
iteration; but the release build wraps the candidate
2000000000 + 2000000000 to -294967296, and relaxing the zero-weight edge
`b → ⟨S, 2⟩` then overwrites the settled entry of `S` with that wrapped
negative, so the entry at settlement differs from the entry at return. -/
theorem settled_entry_overwritten :
    (∀ e ∈ (Djikstra.new overflowGraph).edges, 0 ≤ e.weight) ∧
    vS1 ∈ (Djikstra.runLoop 1 ((Djikstra.new overflowGraph).runInit vS1)).settled_nodes ∧
    mapFind vS1.id
      (Djikstra.runLoop 1 ((Djikstra.new overflowGraph).runInit vS1)).distance = some 0 ∧
    mapFind vS1.id runOv.distance = some (-294967296) := by
  decide

/-- C8 amended: on a graph with non-negative weights whose doubled total
weight stays at most `i32::MAX` — so no executed `i32` candidate addition
overflows — once a vertex is settled at some point `n` of the main loop, its
distance entry is never modified by any later relaxation: the entry at the
moment of settlement equals the entry when `run` returns. -/
theorem Djikstra.settled_distance_final (s₀ : Djikstra) (src : Vertex)
    (hw : ∀ e ∈ s₀.edges, 0 ≤ e.weight)
    (htot : 2 * edgeWeightSum s₀.edges ≤ i32MAX) (n : Nat) (v : Vertex)
    (hv : v ∈ (Djikstra.runLoop n (s₀.runInit src)).settled_nodes) :
    mapFind v.id (s₀.run src).distance =
    mapFind v.id (Djikstra.runLoop n (s₀.runInit src)).distance := by
  have hw' : ∀ e ∈ (Djikstra.runLoop n (s₀.runInit src)).edges, 0 ≤ e.weight := by
    rw [Djikstra.runLoop_edges]
    exact hw
  have htot' : 2 * edgeWeightSum (Djikstra.runLoop n (s₀.runInit src)).edges ≤ i32MAX := by
    rw [Djikstra.runLoop_edges]
    exact htot
  have hbn : InvB src (Djikstra.runLoop n (s₀.runInit src)) :=
    InvB.loopB n _ (InvB.initB s₀ src) hw htot
  rcases le_or_lt n (s₀.edges.length + 1) with h | h
  · have hsplit : s₀.run src =
        Djikstra.runLoop (s₀.edges.length + 1 - n) (Djikstra.runLoop n (s₀.runInit src)) := by
      unfold Djikstra.run
      rw [← Djikstra.runLoop_add]
      congr 1
      omega
    rw [hsplit]
    exact runLoop_frozen _ _ hbn hw' htot' v hv
  · have hsplit : Djikstra.runLoop n (s₀.runInit src) =
        Djikstra.runLoop (n - (s₀.edges.length + 1)) (s₀.run src) := by
      unfold Djikstra.run
      rw [← Djikstra.runLoop_add]
      congr 1
      omega
    rw [hsplit, Djikstra.runLoop_stall _ _ (s₀.run_unsettled_nil src)]

/-- Witness for C8 (amended) on scenario A (total weight 320, so the bound
holds): vertex `B` is settled after two iterations with entry 10, and the
final distance entry of `B` is that same 10. -/
theorem settled_distance_final_witness :
    mapFind vB.id ((Djikstra.new scenarioA).run vA).distance =
    mapFind vB.id (Djikstra.runLoop 2 ((Djikstra.new scenarioA).runInit vA)).distance :=
  Djikstra.settled_distance_final (Djikstra.new scenarioA) vA (by decide) (by decide)
    2 vB (by decide)

end ClaimC8

section Optimality

/-- Optimality invariant layer: every settled entry is a lower bound of all
path sums to its id, and every edge out of a settled vertex has been relaxed
(whenever its candidate stays below the `i32::MAX` sentinel). -/
structure InvO (src : Vertex) (s : Djikstra) : Prop where
  settledLB : ∀ v ∈ s.settled_nodes, ∀ d, mapFind v.id s.distance = some d →
    ∀ p, IsPath s.edges src.id v.id p → d ≤ pathSum p
  closure : ∀ v ∈ s.settled_nodes, ∀ e ∈ s.edges, e.source.id = v.id →
    ∀ dv, mapFind v.id s.distance = some dv → dv + e.weight < i32MAX →
    ∃ dt, mapFind e.destination.id s.distance = some dt ∧ dt ≤ dv + e.weight

/-- Any path strictly cheaper than the minimum tentative distance of the
frontier ends at an already settled vertex. -/
theorem cheap_path_settled {src : Vertex} {s : Djikstra} (hb : InvB src s)
    (ho : InvO src s) (hw : ∀ e ∈ s.edges, 0 ≤ e.weight) (u : Vertex)
    (hu : u ∈ s.unsettled_nodes)
    (hmin : ∀ q ∈ s.unsettled_nodes, distOr s u.id ≤ distOr s q.id) :
    ∀ (b : String) (p : List Edge), IsPath s.edges src.id b p →
    pathSum p < distOr s u.id → ∃ vb ∈ s.settled_nodes, vb.id = b := by
  intro b p hp
  induction hp with
  | nil =>
    intro hsum
    rw [pathSum_nil] at hsum
    obtain ⟨v, hvid, hv⟩ := hb.disc src.id (by rw [hb.srcZero]; rfl)
    rcases hv with hv | hv
    · exact ⟨v, hv, hvid⟩
    · exfalso
      have h1 := hmin v hv
      have h2 : distOr s v.id = 0 := by rw [hvid]; exact distOr_eq_of_find hb.srcZero
      rw [h2] at h1
      linarith
  | @snoc b' p' e hp' he hsrc ih =>
    intro hsum
    rw [pathSum_append_single] at hsum
    have hwe : 0 ≤ e.weight := hw e he
    have hsum' : pathSum p' < distOr s u.id := by linarith
    obtain ⟨vm, hvmS, hvmid⟩ := ih hsum'
    obtain ⟨dm, hdm⟩ := Option.isSome_iff_exists.mp (hb.entriesS vm hvmS)
    have hLB : dm ≤ pathSum p' := ho.settledLB vm hvmS dm hdm p' (by rw [hvmid]; exact hp')
    obtain ⟨du, hdu⟩ := Option.isSome_iff_exists.mp (hb.entriesQ u hu)
    have hduMax : du < i32MAX := hb.ltMax u.id du hdu
    have hduOr : distOr s u.id = du := distOr_eq_of_find hdu
    have hclo : dm + e.weight < i32MAX := by
      rw [hduOr] at hsum
      linarith
    obtain ⟨dt, hdt, hdtle⟩ :=
      ho.closure vm hvmS e he (hsrc.trans hvmid.symm) dm hdm hclo
    obtain ⟨vb, hvbid, hvb⟩ := hb.disc e.destination.id (by rw [hdt]; rfl)
    rcases hvb with hvb | hvb
    · exact ⟨vb, hvb, hvbid⟩
    · exfalso
      have h1 := hmin vb hvb
      have h2 : distOr s vb.id = dt := by rw [hvbid]; exact distOr_eq_of_find hdt
      rw [h2] at h1
      linarith

/-- The tentative distance of the extracted minimum is a lower bound of every
path sum to its id: the key step of Dijkstra's correctness argument. -/
theorem extract_min_LB {src : Vertex} {s : Djikstra} (hb : InvB src s)
    (ho : InvO src s) (hw : ∀ e ∈ s.edges, 0 ≤ e.weight) (u : Vertex)
    (hu : u ∈ s.unsettled_nodes)
    (hmin : ∀ q ∈ s.unsettled_nodes, distOr s u.id ≤ distOr s q.id) :
    ∀ p, IsPath s.edges src.id u.id p → distOr s u.id ≤ pathSum p := by
  intro p hp
  by_contra hlt
  push_neg at hlt
  obtain ⟨vb, hvbS, hvbid⟩ := cheap_path_settled hb ho hw u hu hmin u.id p hp hlt
  obtain ⟨d, hd⟩ := Option.isSome_iff_exists.mp (hb.entriesS vb hvbS)
  have h1 : distOr s u.id = d := by rw [← hvbid]; exact distOr_eq_of_find hd
  have h2 : d ≤ pathSum p := ho.settledLB vb hvbS d hd p (by rw [hvbid]; exact hp)
  rw [h1] at hlt
  exact absurd h2 (not_le.mpr hlt)

/-- The loop body `runStep` preserves the optimality invariant (equal-weight parallel edges
assumed, so the weight looked up by `get_distance` is the weight of every
matching edge). -/
theorem InvO.stepO {src : Vertex} {s : Djikstra} (hb : InvB src s) (ho : InvO src s)
    (hw : ∀ e ∈ s.edges, 0 ≤ e.weight)
    (htot : 2 * edgeWeightSum s.edges ≤ i32MAX)
    (hpf : ∀ e f, e ∈ s.edges → f ∈ s.edges → e.source.id = f.source.id →
      e.destination.id = f.destination.id → e.weight = f.weight) :
    InvO src s.runStep := by
  rcases runStep_cases hb hw htot with ⟨_, heq⟩ | ⟨u, huQ, hle, hmid, hbound⟩
  · rw [heq]
    exact ho
  · constructor
    · intro v hv d hd p hp
      rw [hmid.settled_eq] at hv
      have hv' : v ∈ listInsert u s.settled_nodes := hv
      rw [hmid.edges_eq] at hp
      have hp' : IsPath s.edges src.id v.id p := hp
      have hfr := hmid.frozen v hv'
      rw [hfr] at hd
      have hd' : mapFind v.id s.distance = some d := hd
      rcases (mem_listInsert u v _).mp hv' with hvS | rfl
      · exact ho.settledLB v hvS d hd' p hp'
      · have hB := extract_min_LB hb ho hw v huQ hle p hp'
        have hOr : distOr s v.id = d := distOr_eq_of_find hd'
        rw [hOr] at hB
        exact hB
    · intro v hv e he hsrc dv hdv hlt
      rw [hmid.settled_eq] at hv
      have hv' : v ∈ listInsert u s.settled_nodes := hv
      rw [hmid.edges_eq] at he
      have he' : e ∈ s.edges := he
      have hfr := hmid.frozen v hv'
      rw [hfr] at hdv
      have hdv' : mapFind v.id s.distance = some dv := hdv
      rcases (mem_listInsert u v _).mp hv' with hvS | rfl
      · obtain ⟨dt, hdt, hdtle⟩ := ho.closure v hvS e he' hsrc dv hdv' hlt
        obtain ⟨dt', hdt', hdtle'⟩ := hmid.dec e.destination.id dt hdt
        exact ⟨dt', hdt', le_trans hdtle' hdtle⟩
      · have hgd : s.get_distance v e.destination = e.weight :=
          s.get_distance_eq_weight hpf v e.destination e he' hsrc rfl
        have hdvOr : distOr s v.id = dv := distOr_eq_of_find hdv'
        have hlt' : distOr s v.id + s.get_distance v e.destination < i32MAX := by
          rw [hdvOr, hgd]
          exact hlt
        obtain ⟨dt, hdt, hdtle⟩ := hbound e he' hsrc hlt'
        refine ⟨dt, hdt, ?_⟩
        rw [hdvOr, hgd] at hdtle
        exact hdtle

theorem InvO.initO (s : Djikstra) (src : Vertex) : InvO src (s.runInit src) := by
  constructor
  · intro v hv
    exact absurd hv (List.not_mem_nil v)
  · intro v hv
    exact absurd hv (List.not_mem_nil v)

theorem InvO.loopO {src : Vertex} : ∀ (n : Nat) (s : Djikstra), InvB src s → InvO src s →
    (∀ e ∈ s.edges, 0 ≤ e.weight) →
    2 * edgeWeightSum s.edges ≤ i32MAX →
    (∀ e f, e ∈ s.edges → f ∈ s.edges → e.source.id = f.source.id →
      e.destination.id = f.destination.id → e.weight = f.weight) →
    InvO src (Djikstra.runLoop n s)
  | 0, _, _, ho, _, _, _ => ho
  | n + 1, s, hb, ho, hw, htot, hpf => by
    rw [Djikstra.runLoop]
    split
    · exact ho
    · exact InvO.loopO n _ (hb.stepB hw htot) (InvO.stepO hb ho hw htot hpf)
        (by rw [Djikstra.runStep_edges]; exact hw)
        (by rw [Djikstra.runStep_edges]; exact htot)
        (by rw [Djikstra.runStep_edges]; exact hpf)

/-- At the end of the run, the entry of every vertex reachable by a path whose
sum is below the sentinel is at most that path's sum. -/
theorem run_entry_le_paths {src : Vertex} {s : Djikstra} (hb : InvB src s)
    (ho : InvO src s) (hw : ∀ e ∈ s.edges, 0 ≤ e.weight)
    (hQ : s.unsettled_nodes = []) :
    ∀ (b : String) (p : List Edge), IsPath s.edges src.id b p → pathSum p < i32MAX →
    ∃ d, mapFind b s.distance = some d ∧ d ≤ pathSum p := by
  intro b p hp
  induction hp with
  | nil =>
    intro _
    refine ⟨0, hb.srcZero, ?_⟩
    rw [pathSum_nil]
  | @snoc b' p' e hp' he hsrc ih =>
    intro hlt
    rw [pathSum_append_single] at hlt
    have hwe : 0 ≤ e.weight := hw e he
    obtain ⟨dm, hdm, hdmle⟩ := ih (by linarith)
    obtain ⟨vm, hvmid, hvm⟩ := hb.disc _ (by rw [hdm]; rfl)
    have hvmS : vm ∈ s.settled_nodes := by
      rcases hvm with hvm | hvm
      · exact hvm
      · rw [hQ] at hvm
        exact absurd hvm (List.not_mem_nil vm)
    have hdm' : mapFind vm.id s.distance = some dm := by rw [hvmid]; exact hdm
    have hclo : dm + e.weight < i32MAX := by linarith
    obtain ⟨dt, hdt, hdtle⟩ :=
      ho.closure vm hvmS e he (hsrc.trans hvmid.symm) dm hdm' hclo
    refine ⟨dt, hdt, ?_⟩
    rw [pathSum_append_single]
    linarith

end Optimality

section ClaimC1

/-- C1 amended: for every graph with non-negative weights in which parallel
edges between the same ordered id pair carry equal weights and whose doubled
total weight stays at most `i32::MAX` (so no executed `i32` candidate addition
overflows), and for every vertex `b` reachable from the source by a path of
total weight below the `i32::MAX` sentinel the code uses as infinity, the
final distance entry of `b` exists, is realized by an actual directed path,
and is a lower bound of every directed path's sum — i.e. it equals the minimum
over all directed paths from the source of the sum of the edge weights. -/
theorem Djikstra.run_distance_optimal (s₀ : Djikstra) (src : Vertex)
    (hw : ∀ e ∈ s₀.edges, 0 ≤ e.weight)
    (htot : 2 * edgeWeightSum s₀.edges ≤ i32MAX)
    (hpf : ∀ e f, e ∈ s₀.edges → f ∈ s₀.edges → e.source.id = f.source.id →
      e.destination.id = f.destination.id → e.weight = f.weight)
    (b : String) (p₀ : List Edge) (hp₀ : IsPath s₀.edges src.id b p₀)
    (hp₀lt : pathSum p₀ < i32MAX) :
    ∃ d, mapFind b (s₀.run src).distance = some d ∧
      (∃ p, IsPath s₀.edges src.id b p ∧ pathSum p = d) ∧
      (∀ p, IsPath s₀.edges src.id b p → d ≤ pathSum p) := by
  have hfb : InvB src (s₀.run src) := InvB.loopB _ _ (InvB.initB s₀ src) hw htot
  have hfo : InvO src (s₀.run src) :=
    InvO.loopO _ _ (InvB.initB s₀ src) (InvO.initO s₀ src) hw htot hpf
  have hQ : (s₀.run src).unsettled_nodes = [] := s₀.run_unsettled_nil src
  have hedges : (s₀.run src).edges = s₀.edges := s₀.run_edges src
  have hw' : ∀ e ∈ (s₀.run src).edges, 0 ≤ e.weight := by rw [hedges]; exact hw
  obtain ⟨d, hd, hdle⟩ := run_entry_le_paths hfb hfo hw' hQ b p₀
    (by rw [hedges]; exact hp₀) hp₀lt
  refine ⟨d, hd, ?_, ?_⟩
  · obtain ⟨p, hbw, hsum⟩ := hfb.reach b d hd
    have hp := hbw.isPath
    rw [hedges] at hp
    exact ⟨p, hp, hsum⟩
  · intro p hp
    by_cases hplt : pathSum p < i32MAX
    · obtain ⟨d', hd', hdle'⟩ := run_entry_le_paths hfb hfo hw' hQ b p
        (by rw [hedges]; exact hp) hplt
      have : d = d' := by
        have h0 := hd.symm.trans hd'
        injection h0
      rw [this]
      exact hdle'
    · push_neg at hplt
      exact le_trans (le_of_lt (hfb.ltMax b d hd)) hplt

/-- Witness for C1 (amended) on scenario A at target `E`, reachable via the
path A→B→E of weight 30. -/
theorem run_distance_optimal_witness :
    ∃ d, mapFind "E" ((Djikstra.new scenarioA).run vA).distance = some d ∧
      (∃ p, IsPath (Djikstra.new scenarioA).edges vA.id "E" p ∧ pathSum p = d) ∧
      (∀ p, IsPath (Djikstra.new scenarioA).edges vA.id "E" p → d ≤ pathSum p) :=
  Djikstra.run_distance_optimal (Djikstra.new scenarioA) vA (by decide) (by decide)
    (by intro e f he hf h1 h2; fin_cases he <;> fin_cases hf <;> revert h1 h2 <;> decide)
    "E" [⟨"AB", vA, vB, 10⟩, ⟨"BE", vB, vE, 20⟩]
    (IsPath.snoc ⟨"BE", vB, vE, 20⟩
      (IsPath.snoc ⟨"AB", vA, vB, 10⟩ IsPath.nil (by decide) rfl) (by decide) rfl)
    (by decide)

end ClaimC1

section ClaimC9

theorem getPathAux_ne_nil (pred : List (String × Vertex)) :
    ∀ (fuel : Nat) (step : String) (path l : List String),
    Djikstra.getPathAux pred fuel step path = some l → path ≠ [] → l ≠ []
  | 0, _, _, _, h, _ => by
    rw [Djikstra.getPathAux] at h
    exact absurd h (by simp)
  | fuel + 1, step, path, l, h, hne => by
    rw [Djikstra.getPathAux] at h
    rcases hf : mapFind step pred with _ | v
    · rw [hf] at h
      injection h with h
      rw [← h]
      exact hne
    · rw [hf] at h
      exact getPathAux_ne_nil pred fuel v.id _ l h (by simp)

/-- C9 counterexample: on the overflow graph (non-negative weights) the
wrapped negative candidate makes `run` insert a predecessor entry for the
source id `S` itself; the backward walk of `get_path(source)` then follows
the cyclic chain S → b → a → S forever instead of returning the empty
sequence (`none` marks the diverging source loop). -/
theorem get_path_source_diverges :
    (∀ e ∈ (Djikstra.new overflowGraph).edges, 0 ≤ e.weight) ∧
    mapFind vS1.id runOv.predecessors = some vMb ∧
    runOv.get_path vS1 = none := by
  decide

/-- C9 amended: after `run(source)` on a graph with non-negative weights whose
doubled total weight stays at most `i32::MAX` (so no executed `i32` candidate
addition overflows), `get_path` returns the empty sequence exactly when the
target has no predecessor entry; in particular `get_path(source)` returns the
empty sequence (not `[source]`), and `get_path` of any vertex unreachable from
the source returns the empty sequence — in each case a normal return value,
never an error. -/
theorem Djikstra.get_path_empty_iff (s₀ : Djikstra) (src t : Vertex)
    (hw : ∀ e ∈ s₀.edges, 0 ≤ e.weight)
    (htot : 2 * edgeWeightSum s₀.edges ≤ i32MAX) :
    ((s₀.run src).get_path t = some [] ↔
      mapFind t.id (s₀.run src).predecessors = none) ∧
    (s₀.run src).get_path src = some [] ∧
    (¬ (∃ p, IsPath s₀.edges src.id t.id p) → (s₀.run src).get_path t = some []) := by
  have hfb : InvB src (s₀.run src) := InvB.loopB _ _ (InvB.initB s₀ src) hw htot
  have hiff : ∀ u : Vertex, ((s₀.run src).get_path u = some [] ↔
      mapFind u.id (s₀.run src).predecessors = none) := by
    intro u
    unfold Djikstra.get_path
    split
    next hf => simp [hf]
    next v hf =>
      constructor
      · intro h
        exfalso
        rcases haux : Djikstra.getPathAux (s₀.run src).predecessors
            ((s₀.run src).predecessors.length + 1) u.id [u.id] with _ | l
        · rw [haux] at h
          exact absurd h (by simp)
        · rw [haux] at h
          simp only [Option.map_some'] at h
          injection h with h
          rw [List.reverse_eq_nil_iff] at h
          exact getPathAux_ne_nil _ _ u.id [u.id] l haux (by simp) h
      · intro h
        rw [h] at hf
        exact absurd hf (by simp)
  refine ⟨hiff t, ?_, ?_⟩
  · exact (hiff src).mpr hfb.predsSrc
  · intro hunreach
    apply (hiff t).mpr
    rcases hp : mapFind t.id (s₀.run src).predecessors with _ | v
    · rfl
    · exfalso
      have hsome := hfb.predsDist t.id v hp
      obtain ⟨d, hd⟩ := Option.isSome_iff_exists.mp hsome
      obtain ⟨p, hbw, _⟩ := hfb.reach t.id d hd
      have hpath := hbw.isPath
      rw [s₀.run_edges src] at hpath
      exact hunreach ⟨p, hpath⟩

/-- A vertex id absent from scenario A. -/
def vZ : Vertex := ⟨"Z", "Z"⟩

/-- Witness for C9 (amended) on scenario A (total weight 320, so the bound
holds): the iff, `get_path(A) = []`, and the unreachable vertex `Z` yielding
the empty path. -/
theorem get_path_empty_iff_witness :
    (((Djikstra.new scenarioA).run vA).get_path vZ = some [] ↔
      mapFind vZ.id ((Djikstra.new scenarioA).run vA).predecessors = none) ∧
    ((Djikstra.new scenarioA).run vA).get_path vA = some [] ∧
    (¬ (∃ p, IsPath (Djikstra.new scenarioA).edges vA.id vZ.id p) →
      ((Djikstra.new scenarioA).run vA).get_path vZ = some []) :=
  Djikstra.get_path_empty_iff (Djikstra.new scenarioA) vA vZ (by decide) (by decide)

end ClaimC9

section ClaimC4

/-- The graph whose only edges are parallel edges `u → t` with weights `ws`. -/
def parallelGraph (u t : Vertex) (ws : List Int) : Graph :=
  ⟨[u, t], ws.map (fun w => ⟨"e", u, t, w⟩)⟩

theorem foldl_weightStep_parallel (u t : Vertex) :
    ∀ (ws : List Int) (hne : ws ≠ []) (acc : Int),
    (ws.map (fun w => (⟨"e", u, t, w⟩ : Edge))).foldl (Djikstra.weightStep u t) acc =
      ws.getLast hne
  | [], hne, _ => absurd rfl hne
  | [w], _, acc => by
    simp [Djikstra.weightStep]
  | w :: w' :: ws, _, acc => by
    rw [List.map_cons, List.foldl_cons,
      foldl_weightStep_parallel u t (w' :: ws) (by simp) _, List.getLast_cons_cons]

theorem listRemove_singleton (v : Vertex) : listRemove v [v] = [] := by
  unfold listRemove
  simp

theorem filter_map_parallel (u t : Vertex) (settled : List Vertex) (hts : t ∉ settled) :
    ∀ ws : List Int,
    ((ws.map (fun w => (⟨"e", u, t, w⟩ : Edge))).filter
      (fun e => decide (e.source.id = u.id) && ! decide (e.destination ∈ settled))).map
      (fun e => e.destination) = ws.map (fun _ => t)
  | [] => rfl
  | w :: ws => by
    rw [List.map_cons, List.filter_cons]
    have hcond : (decide ((⟨"e", u, t, w⟩ : Edge).source.id = u.id) &&
        ! decide ((⟨"e", u, t, w⟩ : Edge).destination ∈ settled)) = true := by
      simp [hts]
    rw [if_pos hcond, List.map_cons, filter_map_parallel u t settled hts ws, List.map_cons]

theorem filter_map_parallel_none (u t : Vertex) (settled : List Vertex)
    (hid : u.id ≠ t.id) :
    ∀ ws : List Int,
    ((ws.map (fun w => (⟨"e", u, t, w⟩ : Edge))).filter
      (fun e => decide (e.source.id = t.id) && ! decide (e.destination ∈ settled))).map
      (fun e => e.destination) = []
  | [] => rfl
  | w :: ws => by
    rw [List.map_cons, List.filter_cons]
    have hcond : (decide ((⟨"e", u, t, w⟩ : Edge).source.id = t.id) &&
        ! decide ((⟨"e", u, t, w⟩ : Edge).destination ∈ settled)) = false := by
      simp [hid]
    rw [hcond]
    simp only [Bool.false_eq_true, if_false]
    exact filter_map_parallel_none u t settled hid ws

theorem fold_relax_noop (node t : Vertex) :
    ∀ (l : List Vertex) (s' : Djikstra), (∀ x ∈ l, x = t) →
    Djikstra.relaxOne node s' t = s' →
    l.foldl (Djikstra.relaxOne node) s' = s'
  | [], _, _, _ => rfl
  | x :: l, s', hl, hno => by
    rw [List.foldl_cons, hl x (List.mem_cons_self x l), hno]
    exact fold_relax_noop node t l s' (fun y hy => hl y (List.mem_cons_of_mem x hy)) hno

/-- C4 amended: for a graph whose only edges are `k ≥ 1` parallel edges
`u → t` (distinct ids, non-negative weights, last weight below the sentinel),
after `run(u)` the distance of `t` equals the weight of the *last* parallel
edge in the edge list — not the minimum.  `get_distance` scans the whole edge
list and overwrites the weight at every match, so every relaxation of `t` uses
the last parallel weight. -/
theorem parallel_last_weight_wins (u t : Vertex) (ws : List Int) (hne : ws ≠ [])
    (hid : u.id ≠ t.id) (hnn : ∀ w ∈ ws, 0 ≤ w)
    (hlt : ws.getLast hne < i32MAX) :
    mapFind t.id ((Djikstra.new (parallelGraph u t ws)).run u).distance =
      some (ws.getLast hne) := by
  have hut : u ≠ t := fun h => hid (by rw [h])
  have htu : t ≠ u := fun h => hut h.symm
  obtain ⟨w₀, ws', rfl⟩ : ∃ w₀ ws', ws = w₀ :: ws' := by
    cases ws with
    | nil => exact absurd rfl hne
    | cons a l => exact ⟨a, l, rfl⟩
  set wL : Int := (w₀ :: ws').getLast hne with hwL
  set E : List Edge := (w₀ :: ws').map (fun w => ⟨"e", u, t, w⟩) with hE
  set sInit : Djikstra := ⟨[u, t], E, [], [u], [], [(u.id, 0)]⟩ with hsInit
  set sTwo : Djikstra := ⟨[u, t], E, [u], [t], [(t.id, u)], [(u.id, 0), (t.id, wL)]⟩
    with hsTwo
  set sThree : Djikstra := ⟨[u, t], E, [u, t], [], [(t.id, u)], [(u.id, 0), (t.id, wL)]⟩
    with hsThree
  have hA : (Djikstra.new (parallelGraph u t (w₀ :: ws'))).runInit u = sInit := by
    unfold Djikstra.new parallelGraph Djikstra.runInit
    rw [hsInit, listInsert_nil]
    rfl
  have hgd : ∀ s : Djikstra, s.edges = E → s.get_distance u t = wL := by
    intro s hs
    unfold Djikstra.get_distance
    rw [hs, hE]
    exact foldl_weightStep_parallel u t (w₀ :: ws') hne 0
  set sMid : Djikstra := ⟨[u, t], E, [u], [], [], [(u.id, 0)]⟩ with hsMid
  have hsettle1 : settleState sInit u = sMid := by
    rw [hsInit, hsMid]
    unfold settleState
    show (⟨[u, t], E, listInsert u [], listRemove u [u], [], [(u.id, 0)]⟩ : Djikstra) = _
    rw [listInsert_nil, listRemove_singleton]
  have hneighMid : sMid.get_neighbors u = (w₀ :: ws').map (fun _ => t) := by
    rw [hsMid]
    unfold Djikstra.get_neighbors Djikstra.is_settled
    show ((E.filter _).map _ : List Vertex) = _
    rw [hE]
    exact filter_map_parallel u t [u] (by simp [htu]) (w₀ :: ws')
  have hgsdMid_t : sMid.get_shortest_distance t = i32MAX := by
    unfold Djikstra.get_shortest_distance
    rw [hsMid]
    show (match mapFind t.id ([(u.id, 0)] : List (String × Int)) with
          | some d => d
          | none => i32MAX) = i32MAX
    rw [mapFind, if_neg hid]
    rfl
  have hgsdMid_u : sMid.get_shortest_distance u = 0 := by
    unfold Djikstra.get_shortest_distance
    rw [hsMid]
    show (match mapFind u.id ([(u.id, 0)] : List (String × Int)) with
          | some d => d
          | none => i32MAX) = (0 : Int)
    rw [mapFind, if_pos rfl]
  have hgdMid : sMid.get_distance u t = wL := hgd sMid (by rw [hsMid])
  have hwLlb : (-2147483648 : Int) ≤ wL := by
    have h0 : (0 : Int) ≤ wL := by
      rw [hwL]
      exact hnn _ (List.getLast_mem hne)
    linarith
  have hwLub : wL ≤ 2147483647 := by
    have h0 : wL < (2147483647 : Int) := hlt
    linarith
  have hrelax1 : Djikstra.relaxOne u sMid t = sTwo := by
    unfold Djikstra.relaxOne
    rw [hgsdMid_t, hgsdMid_u, hgdMid, zero_add, wrap32_eq_self hwLlb hwLub]
    rw [if_pos (show i32MAX > wL from hlt)]
    rw [hsMid, hsTwo]
    show (⟨[u, t], E, [u], listInsert t [], mapInsert t.id u [],
      mapInsert t.id wL [(u.id, 0)]⟩ : Djikstra) = _
    rw [listInsert_nil]
    show (⟨[u, t], E, [u], [t], [(t.id, u)], mapInsert t.id wL [(u.id, 0)]⟩ : Djikstra) = _
    rw [mapInsert, if_neg hid]
    rfl
  have hgsdTwo_t : sTwo.get_shortest_distance t = wL := by
    unfold Djikstra.get_shortest_distance
    rw [hsTwo]
    show (match mapFind t.id ([(u.id, 0), (t.id, wL)] : List (String × Int)) with
          | some d => d
          | none => i32MAX) = wL
    rw [mapFind, if_neg hid, mapFind, if_pos rfl]
  have hgsdTwo_u : sTwo.get_shortest_distance u = 0 := by
    unfold Djikstra.get_shortest_distance
    rw [hsTwo]
    show (match mapFind u.id ([(u.id, 0), (t.id, wL)] : List (String × Int)) with
          | some d => d
          | none => i32MAX) = (0 : Int)
    rw [mapFind, if_pos rfl]
  have hgdTwo : sTwo.get_distance u t = wL := hgd sTwo (by rw [hsTwo])
  have hrelaxNoop : Djikstra.relaxOne u sTwo t = sTwo := by
    unfold Djikstra.relaxOne
    rw [hgsdTwo_t, hgsdTwo_u, hgdTwo, zero_add, wrap32_eq_self hwLlb hwLub]
    rw [if_neg (show ¬wL > wL from lt_irrefl wL)]
  have hB : sInit.runStep = sTwo := by
    have hminInit : sInit.get_minimum sInit.unsettled_nodes = some u := by
      rw [hsInit]
      rfl
    unfold Djikstra.runStep
    rw [hminInit]
    show Djikstra.find_minimal_distance (settleState sInit u) u = sTwo
    rw [hsettle1]
    unfold Djikstra.find_minimal_distance
    rw [hneighMid, List.map_cons, List.foldl_cons, hrelax1]
    refine fold_relax_noop u t _ sTwo ?_ hrelaxNoop
    intro x hx
    obtain ⟨_, _, h⟩ := List.mem_map.mp hx
    exact h.symm
  have hsettle2 : settleState sTwo t = sThree := by
    rw [hsTwo, hsThree]
    unfold settleState
    show (⟨[u, t], E, listInsert t [u], listRemove t [t], [(t.id, u)],
      [(u.id, 0), (t.id, wL)]⟩ : Djikstra) = _
    rw [listRemove_singleton]
    have hins : listInsert t [u] = [u, t] := by
      unfold listInsert
      rw [if_neg (by simp [htu])]
      rfl
    rw [hins]
  have hneighThree : sThree.get_neighbors t = [] := by
    rw [hsThree]
    unfold Djikstra.get_neighbors Djikstra.is_settled
    show ((E.filter _).map _ : List Vertex) = _
    rw [hE]
    exact filter_map_parallel_none u t [u, t] hid (w₀ :: ws')
  have hC : sTwo.runStep = sThree := by
    have hminTwo : sTwo.get_minimum sTwo.unsettled_nodes = some t := by
      rw [hsTwo]
      rfl
    unfold Djikstra.runStep
    rw [hminTwo]
    show Djikstra.find_minimal_distance (settleState sTwo t) t = sThree
    rw [hsettle2]
    unfold Djikstra.find_minimal_distance
    rw [hneighThree]
    rfl
  unfold Djikstra.run
  rw [hA]
  have hlen : (Djikstra.new (parallelGraph u t (w₀ :: ws'))).edges.length =
      ws'.length + 1 := by
    simp [Djikstra.new, parallelGraph]
  rw [hlen]
  rw [Djikstra.runLoop]
  rw [if_neg (show ¬sInit.unsettled_nodes.isEmpty = true by rw [hsInit]; simp)]
  rw [hB]
  rw [Djikstra.runLoop]
  rw [if_neg (show ¬sTwo.unsettled_nodes.isEmpty = true by rw [hsTwo]; simp)]
  rw [hC]
  rw [Djikstra.runLoop_stall _ _ (show sThree.unsettled_nodes = [] by rw [hsThree])]
  rw [hsThree]
  show mapFind t.id [(u.id, 0), (t.id, wL)] = some wL
  rw [mapFind, if_neg hid, mapFind, if_pos rfl]

end ClaimC4

/-- Witness for C4 (amended) with the two parallel edges of weights 3 then 9:
the final distance of `t` is the last weight, 9. -/
theorem parallel_last_weight_wins_witness :
    mapFind vT.id ((Djikstra.new (parallelGraph vU vT [3, 9])).run vU).distance =
      some (([3, 9] : List Int).getLast (by decide)) :=
  parallel_last_weight_wins vU vT [3, 9] (by decide) (by decide) (by decide) (by decide)
